import Mathlib

/-!
Verification development for the pyqbf repository.

Shallow embedding of the formula engine (`formula.py`), the QDIMACS
reader (`parse.py`) and the solver entry point (`lib.py`).

Modelling conventions, matching the Python source:
* A `Literal` `(variable, is_positive)` is encoded by its signed index
  (`variable` if positive, `-variable` if negative), an `Int`.  The two
  encodings are in bijection because 0 is not a valid variable index.
* Python `frozenset` of literals becomes `Finset Int`; clause equality in
  Python is defined purely on the literal set, so "Python-equality" of two
  clauses `c d` is rendered as `c.literals = d.literals` while Lean record
  equality plays the role of object identity (`is`).
* Python `dict`s (insertion ordered, unique keys) become association
  lists; `set`s of clauses (deduplicated by literal-set equality) become
  lists kept free of literal-set duplicates by the insertion operations.
  Where Python iterates over a `set` or `frozenset` in hash order, the
  model iterates in insertion order (for occurrence sets) or in ascending
  order of signed index (for literal sets); every claim settled below is
  either insensitive to that order or is evaluated on a concrete state
  where the trace has been checked against the source by hand.
* The occurrence set of each literal is mutable shared state hanging off
  the `Variable`-owned literal objects; since all literal objects stored
  in clauses are the variable-owned ones, this is modelled as one map
  from signed literal index to its occurrence list inside `Formula`.
* Python `assert` failures and uncaught `KeyError`s are modelled as
  `Option.none` results.
-/

/-- Quantifier kinds as in `parse.QuantifierType`. -/
inductive QuantifierType where
  | FORALL
  | EXISTS
deriving DecidableEq, Repr

/-- A quantifier block as in `parse.QuantifierBlock`: the bound variables
(arbitrary ints; the reader performs no range check on them) and the
quantifier kind. -/
structure QuantifierBlock where
  bound_variables : List Int
  quantifier_type : QuantifierType
deriving DecidableEq, Repr

/-- Validated formula description as in `parse.QDimacs`. -/
structure QDimacs where
  num_vars : Int
  clauses : List (List Int)
  quantifiers : List QuantifierBlock
deriving DecidableEq, Repr

/-- A variable as in `formula.Variable`: its index, quantifier and the
informational dependency set.  In the source `dependencies` receives the
(shared, mutable) set of universal variable indices seen so far; the model
stores the final value that set reaches (see `initFormula`). -/
structure Variable where
  index : Int
  quantifier : QuantifierType
  dependencies : Finset Int
deriving DecidableEq

/-- A clause as in `formula.Clause`: a frozenset of literals (signed
indices), a clause index, and the original/derived flag.  Python clause
equality compares only `literals`; record equality here stands for object
identity. -/
structure Clause where
  literals : Finset Int
  index : Int
  is_original : Bool
deriving DecidableEq

/-- Signed-index encoding of `Literal.variable`: `abs` of the signed index. -/
def litVar (l : Int) : Int := |l|

/-- Association-list lookup (Python `dict.__getitem__` / `in` test). -/
def alookup {α : Type} : List (Int × α) → Int → Option α
  | [], _ => none
  | (k, v) :: rest, k' => if k = k' then some v else alookup rest k'

/-- Association-list assignment (Python `dict.__setitem__`): overwrites in
place if the key is present, appends otherwise. -/
def aset {α : Type} : List (Int × α) → Int → α → List (Int × α)
  | [], k, v => [(k, v)]
  | (k', v') :: rest, k, v =>
    if k' = k then (k, v) :: rest else (k', v') :: aset rest k v

/-- Association-list deletion (Python `del d[k]`; used only where the key
is known present or the source guards the deletion). -/
def adel {α : Type} (m : List (Int × α)) (k : Int) : List (Int × α) :=
  m.filter (fun p => decide (p.1 ≠ k))

/-- Working representation of a QBF formula, as in `formula.Formula`. -/
structure Formula where
  quantifiers : List QuantifierBlock
  variables_by_index : List (Int × Variable)
  clauses : List Clause
  clauses_by_index : List (Int × Clause)
  occurrences : List (Int × List Clause)
  largest_used_variable_index : Int
  largest_used_clause_index : Int
  empty_clause_cache : Option Clause
deriving DecidableEq

/-- Occurrence set of the literal with the given signed index (a fresh
literal starts with an empty occurrence set). -/
def occGet (f : Formula) (l : Int) : List Clause :=
  (alookup f.occurrences l).getD []

/-- Python `set.add` on an occurrence set: a no-op when a clause with the
same literal set is already present (Python clause equality). -/
def occListAdd (cs : List Clause) (c : Clause) : List Clause :=
  if cs.any (fun d => decide (d.literals = c.literals)) then cs else cs ++ [c]

/-- Record the clause in the occurrence set of the given signed literal. -/
def occInsert (occ : List (Int × List Clause)) (l : Int) (c : Clause) :
    List (Int × List Clause) :=
  aset occ l (occListAdd ((alookup occ l).getD []) c)

/-- The while loop of `next_fresh_clause_index` / `next_fresh_variable_index`:
starting from `i`, return the first integer that is not a key of `m`.  The
fuel `m.length + 1` always suffices because the keys of the maps built by
the engine are distinct, so at most `m.length` consecutive integers can be
keys. -/
def nextFreshFrom {α : Type} (m : List (Int × α)) : Nat → Int → Int
  | 0, i => i
  | fuel + 1, i => if (alookup m i).isSome then nextFreshFrom m fuel (i + 1) else i

/-- Source: `Formula.next_fresh_clause_index`; also advances the
`_largest_used_clause_index` cursor. -/
def next_fresh_clause_index (f : Formula) : Int × Formula :=
  let i := nextFreshFrom f.clauses_by_index (f.clauses_by_index.length + 1)
    f.largest_used_clause_index
  (i, { f with largest_used_clause_index := i })

/-- Source: `Formula.next_fresh_variable_index`. -/
def next_fresh_variable_index (f : Formula) : Int × Formula :=
  let i := nextFreshFrom f.variables_by_index (f.variables_by_index.length + 1)
    f.largest_used_variable_index
  (i, { f with largest_used_variable_index := i })

/-- Source: `Clause.is_tautology`: some literal occurs in both polarities. -/
def clauseIsTautology (c : Clause) : Prop :=
  ∃ l ∈ c.literals, -l ∈ c.literals

instance (c : Clause) : Decidable (clauseIsTautology c) := by
  unfold clauseIsTautology; infer_instance

/-- Literals of a clause listed in ascending signed-index order (the model's
stand-in for Python's hash-determined frozenset iteration order).
Implemented through `insertionSort` so that it evaluates by kernel
reduction on concrete literal sets. -/
def sortLits (s : Finset Int) : List Int :=
  Quot.liftOn s.val (fun l => l.insertionSort (· ≤ ·)) (by
    intro a b h
    exact List.eq_of_perm_of_sorted
      ((List.perm_insertionSort _ a).trans (h.trans (List.perm_insertionSort _ b).symm))
      (List.sorted_insertionSort _ a) (List.sorted_insertionSort _ b))

/-- Source: `Formula.is_clause_subsumed`.  Checks, in order: literal-set
equality with a live clause, tautology, the empty-clause early exit, then
the occurrence-list based subsumption test through the rarest literal
(Python `min` keeps the first literal attaining the minimal occurrence
count). -/
def is_clause_subsumed (f : Formula) (c : Clause) : Bool :=
  if f.clauses.any (fun d => decide (d.literals = c.literals)) then true
  else if decide (clauseIsTautology c) then true
  else if decide (c.literals = ∅) then false
  else
    match sortLits c.literals with
    | [] => false
    | h :: t =>
      let rare := t.foldl
        (fun best l =>
          if (occGet f l).length < (occGet f best).length then l else best) h
      let candidates := (occGet f rare).filter
        (fun d => decide (d.literals.card ≤ c.literals.card))
      candidates.any (fun d => decide (d.literals ⊆ c.literals))

/-- Source: `Formula.add_clause`.  The guarding
`assert clause.index not in self.clauses` compares the int `clause.index`
against a set of `Clause` values; `Clause.__eq__` returns `False` for
non-`Clause` operands (as does `int.__eq__` for clauses), so the
membership test is always false and the assertion can never fire.  The
guard is kept here exactly as it evaluates. -/
def add_clause (f : Formula) (c : Clause) : Option Formula :=
  if f.clauses.any (fun _ => false) then none
  else if is_clause_subsumed f c then some f
  else some { f with
    clauses := f.clauses ++ [c]
    clauses_by_index := aset f.clauses_by_index c.index c
    occurrences := (sortLits c.literals).foldl (fun occ l => occInsert occ l c)
      f.occurrences }

/-- Source: `Formula.generate_empty_clause` (an `lru_cache`d method: the
clause is created once per formula and cached). -/
def generate_empty_clause (f : Formula) : Clause × Formula :=
  match f.empty_clause_cache with
  | some c => (c, f)
  | none =>
    let p := next_fresh_clause_index f
    let c : Clause := ⟨∅, p.1, false⟩
    (c, { p.2 with empty_clause_cache := some c })

/-- Source: `Formula.contains_empty_clause`: membership of the cached empty
clause in the live set, by Python clause equality (literal sets). -/
def contains_empty_clause (f : Formula) : Bool × Formula :=
  let p := generate_empty_clause f
  (f.clauses.any (fun d => decide (d.literals = p.1.literals)), p.2)

/-- Source: `Formula.resolve`.  The two asserts `clause is
self.clauses_by_index[clause.index]` (a `KeyError` on an absent index is
also modelled as `none`) and the liveness assert on the pivot variable. -/
def resolve (f : Formula) (c1 c2 : Clause) (v : Variable) :
    Option (Clause × Formula) :=
  if alookup f.variables_by_index v.index = none then none
  else if alookup f.clauses_by_index c1.index ≠ some c1 then none
  else if alookup f.clauses_by_index c2.index ≠ some c2 then none
  else
    let lits := (c1.literals ∪ c2.literals).filter (fun l => litVar l ≠ v.index)
    let p := next_fresh_clause_index f
    some (⟨lits, p.1, false⟩, p.2)

/-- Level and quantifier kind of each variable bound in the prefix, as the
`var_to_level` / `var_to_quantifier` dicts of `universal_reduction` build
them (later blocks overwrite earlier ones). -/
def varBlockData (qs : List QuantifierBlock) : List (Int × (Nat × QuantifierType)) :=
  (qs.enum).foldl
    (fun acc p =>
      p.2.bound_variables.foldl
        (fun acc' v => aset acc' v (p.1, p.2.quantifier_type)) acc)
    []

/-- A literal is universal for the prefix iff its variable is bound by a
(last-wins) FORALL block. -/
def litIsUniversal (info : List (Int × (Nat × QuantifierType))) (l : Int) : Bool :=
  match alookup info (litVar l) with
  | some (_, QuantifierType.FORALL) => true
  | _ => false

/-- The `can_reduce` test of `universal_reduction`: the universal literal's
level (`var_to_level.get(var, -1)`) is strictly greater than the level of
some existential literal (`var_to_level.get(var, float("inf"))`, so an
unquantified existential never enables a reduction). -/
def canReduce (info : List (Int × (Nat × QuantifierType)))
    (existential_literals : List Int) (u : Int) : Bool :=
  let ulevel : Int :=
    match alookup info (litVar u) with
    | some (lv, _) => (lv : Int)
    | none => -1
  existential_literals.any (fun e =>
    match alookup info (litVar e) with
    | some (lv, _) => decide (ulevel > (lv : Int))
    | none => false)

/-- The `existential_literals` list of `universal_reduction`: literals of
the clause whose variable is not universally quantified (bound by an
EXISTS block or unbound). -/
def urExistential (f : Formula) (c : Clause) : List Int :=
  (sortLits c.literals).filter (fun l => ! litIsUniversal (varBlockData f.quantifiers) l)

/-- The `universal_literals` list of `universal_reduction`. -/
def urUniversal (f : Formula) (c : Clause) : List Int :=
  (sortLits c.literals).filter (fun l => litIsUniversal (varBlockData f.quantifiers) l)

/-- The `reduced_literals` list of `universal_reduction`: the existential
literals followed by the universal literals that survive the `can_reduce`
test against the clause's original existential literal list. -/
def urReduced (f : Formula) (c : Clause) : List Int :=
  urExistential f c ++ (urUniversal f c).filter
    (fun u => ! canReduce (varBlockData f.quantifiers) (urExistential f c) u)

/-- The `corrected_literals` list of `universal_reduction`: the reduced
literals whose variable is still registered (in the signed-index encoding
the rebuild through `var.get_literal(lit.is_positive)` is the identity, so
only the liveness filter remains). -/
def urCorrected (f : Formula) (c : Clause) : List Int :=
  (urReduced f c).filter (fun l => (alookup f.variables_by_index (litVar l)).isSome)

/-- Source: `Formula.universal_reduction`.  An empty prefix returns the
clause unchanged; otherwise universal literals reducible against the
clause's original existential literal set are dropped; if nothing is
dropped the original clause is returned; dropped-to clauses are rebuilt
from the variable-owned literals, silently skipping literals whose
variable is no longer live; if nothing survives the rebuild, the cached
empty clause is returned. -/
def universal_reduction (f : Formula) (c : Clause) : Clause × Formula :=
  if f.quantifiers = [] then (c, f)
  else if (urReduced f c).length = c.literals.card then (c, f)
  else if urCorrected f c = [] then generate_empty_clause f
  else
    (⟨(urCorrected f c).toFinset, (next_fresh_clause_index f).1, false⟩,
      (next_fresh_clause_index f).2)

/-- One iteration of the resolvent-collection loop of
`eliminate_variable`: resolve a positive-occurrence clause against a
negative-occurrence clause, apply universal reduction, and append the
result to the collected resolvents. -/
def elimStep (v : Variable) (acc : List Clause × Formula) (pn : Clause × Clause) :
    Option (List Clause × Formula) := do
  let r ← resolve acc.2 pn.1 pn.2 v
  let r2 := universal_reduction r.2 r.1
  pure (acc.1 ++ [r2.1], r2.2)

/-- One step of the retirement loop of `eliminate_variable`: drop the
clause from the id map and (by Python clause equality) from the live set;
the occurrence sets are deliberately left untouched, as in the source. -/
def retireClause (g : Formula) (c : Clause) : Formula :=
  { g with
    clauses_by_index := adel g.clauses_by_index c.index
    clauses := g.clauses.filter (fun d => decide (d.literals ≠ c.literals)) }

/-- Source: `Formula.eliminate_variable`.  Collect all cross resolvents of
the variable's positive and negative occurrence lists (universal reduction
applied to each), retire every clause in either occurrence list (removal
from the id map and the live set, with no occurrence-set cleanup — exactly
as in the source), delete the variable, then insert the resolvents through
`add_clause`. -/
def eliminate_variable (f : Formula) (v : Variable) : Option Formula :=
  if alookup f.variables_by_index v.index = none then none
  else
    let pos := occGet f v.index
    let neg := occGet f (-v.index)
    let pairs := pos.flatMap (fun p => neg.map (fun n => (p, n)))
    match pairs.foldlM (elimStep v) (([], f) : List Clause × Formula) with
    | none => none
    | some (resolvents, f1) =>
      let touched := pos ++ neg.filter
        (fun n => ! pos.any (fun p => decide (p.literals = n.literals)))
      let f2 := touched.foldl retireClause f1
      let f3 := { f2 with variables_by_index := adel f2.variables_by_index v.index }
      resolvents.foldlM (fun g rc => add_clause g rc) f3

/-- Registration of a variable at a definite index: the assert of
`create_fresh_variable` rejects an already-registered index, otherwise the
variable is stored under it. -/
def createFreshAt (f : Formula) (i : Int) (quant : QuantifierType)
    (deps : Finset Int) : Option Formula :=
  if (alookup f.variables_by_index i).isSome then none
  else some { f with
    variables_by_index := aset f.variables_by_index i ⟨i, quant, deps⟩ }

/-- Source: `Formula.create_fresh_variable`.  The Python default handling
`index = index or self.next_fresh_variable_index()` treats the falsy index
`0` (and `None`, which no call site passes explicitly) as "allocate a
fresh index"; the assert rejects an already-registered index. -/
def create_fresh_variable (f : Formula) (idx : Int) (quant : QuantifierType)
    (deps : Finset Int) : Option Formula :=
  if idx = 0 then
    createFreshAt (next_fresh_variable_index f).2 (next_fresh_variable_index f).1
      quant deps
  else createFreshAt f idx quant deps

/-- Source: `Formula.get_literal_by_index`: fetch the variable-owned
literal for a signed index (a `KeyError` for an unregistered variable — in
particular for the index 0 — is modelled as `none`).  In the signed-index
encoding the returned literal is the input index itself. -/
def get_literal_by_index (f : Formula) (li : Int) : Option Int :=
  match alookup f.variables_by_index (litVar li) with
  | none => none
  | some _ => some (if li > 0 then litVar li else -litVar li)

/-- Source: `Formula.create_clause_from_qdimacs`. -/
def create_clause_from_qdimacs (f : Formula) (cl : List Int) (idx : Int) :
    Option Clause := do
  let lits ← cl.mapM (get_literal_by_index f)
  pure ⟨lits.toFinset, idx, true⟩

/-- Universal variable indices bound anywhere in the prefix: the final
value reached by the `universal_variables` set that `Formula.__init__`
threads (by reference) into the dependency sets of existential
variables. -/
def totalUniversals (qs : List QuantifierBlock) : Finset Int :=
  qs.foldl
    (fun acc b =>
      if b.quantifier_type = QuantifierType.FORALL then
        acc ∪ b.bound_variables.toFinset
      else acc)
    ∅

/-- One step of the quantifier-block phase: account the variable in the
universal set if its block is a FORALL block, then register it (with the
dependency semantics described at `initQuantifierPhase`). -/
def quantVarStep (qsAll : List QuantifierBlock) (b : QuantifierBlock)
    (acc : Finset Int × Formula) (v : Int) : Option (Finset Int × Formula) := do
  let uni := if b.quantifier_type = QuantifierType.FORALL then
    insert v acc.1 else acc.1
  let deps := if b.quantifier_type = QuantifierType.EXISTS then
    (if uni = ∅ then (∅ : Finset Int) else totalUniversals qsAll)
  else ∅
  let f' ← create_fresh_variable acc.2 v b.quantifier_type deps
  pure (uni, f')

/-- The quantifier-block phase of `Formula.__init__`, threading the set of
universal variables seen so far.  In the source every existential variable
created while that set is non-empty shares the very set object, which
keeps growing as later FORALL blocks are processed; the model therefore
stores its final value `totalUniversals qs` for those variables (and the
fresh empty set the `dependencies or set()` default produces when the set
is empty at creation time). -/
def initQuantifierPhase (qs : List QuantifierBlock) (f : Formula) :
    Option (Finset Int × Formula) :=
  qs.foldlM
    (fun (acc : Finset Int × Formula) b =>
      b.bound_variables.foldlM (quantVarStep qs b) acc)
    ((∅ : Finset Int), f)

/-- One step of the fill-in loop of `Formula.__init__`: an index not yet
registered becomes an existential variable with an empty dependency set. -/
def fillStep (g : Formula) (i : Int) : Option Formula :=
  if (alookup g.variables_by_index i).isSome then some g
  else create_fresh_variable g i QuantifierType.EXISTS ∅

/-- The index list `range(1, num_vars + 1)` of `Formula.__init__`. -/
def fillIndices (num_vars : Int) : List Int :=
  (List.range num_vars.toNat).map (fun (k : Nat) => (k : Int) + 1)

/-- The fill-in phase of `Formula.__init__` over the indices 1 to
`num_vars`. -/
def initFillPhase (num_vars : Int) (f : Formula) : Option Formula :=
  (fillIndices num_vars).foldlM fillStep f

/-- Missing-variable creation for one literal of an input clause. -/
def clauseVarStep (h : Formula) (lit : Int) : Option Formula :=
  if (alookup h.variables_by_index (litVar lit)).isSome then some h
  else create_fresh_variable h (litVar lit) QuantifierType.EXISTS ∅

/-- Processing of one input clause in `Formula.__init__`: create the
missing variables its literals mention, build the clause, insert it. -/
def clauseStep (g : Formula) (p : Nat × List Int) : Option Formula := do
  let g1 ← p.2.foldlM clauseVarStep g
  let cl ← create_clause_from_qdimacs g1 p.2 (p.1 : Int)
  add_clause g1 cl

/-- The clause phase of `Formula.__init__`: clauses are processed in input
order, indexed by their position. -/
def initClausePhase (cls : List (List Int)) (f : Formula) : Option Formula :=
  (cls.enum).foldlM clauseStep f

/-- Source: `Formula.__init__`. -/
def initFormula (q : QDimacs) : Option Formula := do
  let f0 : Formula :=
    { quantifiers := q.quantifiers
      variables_by_index := []
      clauses := []
      clauses_by_index := []
      occurrences := []
      largest_used_variable_index := 1
      largest_used_clause_index := 0
      empty_clause_cache := none }
  let p ← initQuantifierPhase q.quantifiers f0
  let f1 ← initFillPhase q.num_vars p.2
  initClausePhase q.clauses f1

/-- Source: `lib.solve` — the solver entry point is a placeholder that
returns the string `UNSAT` for every input. -/
def solve (_ : QDimacs) : String := "UNSAT"

/-- The end-to-end scenario input of §8: `num_vars=1, clauses=[[1]]`, empty
quantifier prefix. -/
def qUnitPos : QDimacs := ⟨1, [[1]], []⟩

/-- Input for the occurrence-invariant trace: two clauses resolving away
variable 1 into a tautology. -/
def qTwoVar : QDimacs := ⟨2, [[1, 2], [-1, -2]], []⟩

/-- Input for the fresh-id trace: eliminating variable 1 produces two
non-tautological resolvents in one step. -/
def qThreeVar : QDimacs := ⟨3, [[1, 2], [1, 3], [-1]], []⟩

/-- The existential variable 1 as `Formula.__init__` registers it for the
inputs above. -/
def var1 : Variable := ⟨1, QuantifierType.EXISTS, ∅⟩

/-- The existential variable 2 as registered for `qTwoVar`. -/
def var2 : Variable := ⟨2, QuantifierType.EXISTS, ∅⟩

/-- State of `qTwoVar` after `eliminate_variable` on variable 1. -/
def fTwoVarElim : Option Formula :=
  (initFormula qTwoVar).bind (fun f => eliminate_variable f var1)

/-- State of `qThreeVar` after `eliminate_variable` on variable 1. -/
def fThreeVarElim : Option Formula :=
  (initFormula qThreeVar).bind (fun f => eliminate_variable f var1)

/-- State of `qUnitPos` after construction (the live clause with id 0 is
registered), used to exercise `add_clause` with an already-used id. -/
def fUnitPos : Option Formula := initFormula qUnitPos

/-- Spec-side rendering (§4.2) of a universal literal's level, exactly the
`var_to_level.get(var, -1)` the code uses (a universal literal is always
bound, so the default is never exercised for one). -/
def specUnivLevel (qs : List QuantifierBlock) (u : Int) : Int :=
  match alookup (varBlockData qs) (litVar u) with
  | some (lv, _) => (lv : Int)
  | none => -1

/-- Spec-side test: the level of universal literal `u` is strictly greater
than the level of the (block-bound) existential literal `e`; an
existential literal bound in no block has no level and never enables a
reduction (§4.2: effectively innermost). -/
def specBlockLevelGt (qs : List QuantifierBlock) (u e : Int) : Bool :=
  match alookup (varBlockData qs) (litVar e) with
  | some (lv, _) => decide (specUnivLevel qs u > (lv : Int))
  | none => false

/-- Spec-side reduction rule of §4.2 / claim C5: a universal literal may
be dropped iff its level is strictly greater than the level of at least
one existential literal of the original clause. -/
def specReducible (qs : List QuantifierBlock) (c : Clause) (u : Int) : Bool :=
  decide (∃ e ∈ c.literals,
    litIsUniversal (varBlockData qs) e = false ∧ specBlockLevelGt qs u e = true)

/-- The literal set claim C5 prescribes for `universal_reduction`: all
existential literals of the clause plus every universal literal that is
not reducible, each judged independently against the clause's original
existential literal set. -/
def specReducedSet (qs : List QuantifierBlock) (c : Clause) : Finset Int :=
  c.literals.filter (fun l =>
    litIsUniversal (varBlockData qs) l = false ∨ specReducible qs c l = false)

/-- Concrete one-clause state (the formula built from `qUnitPos`), used
as the witness state for the duplicate-insertion theorem. -/
def fWitness8 : Formula :=
  ⟨[], [(1, ⟨1, QuantifierType.EXISTS, ∅⟩)], [⟨{1}, 0, true⟩],
    [(0, ⟨{1}, 0, true⟩)], [(1, [⟨{1}, 0, true⟩])], 1, 0, none⟩

/-- Input for the empty-clause identity trace: `∃1. (1) ∧ (¬1)`. -/
def qTaut : QDimacs := ⟨1, [[1], [-1]], [⟨[1], QuantifierType.EXISTS⟩]⟩

/-- State of `qTaut` after `contains_empty_clause` has materialized the
cached canonical empty clause (which receives id 2). -/
def fTautCached : Option Formula :=
  (initFormula qTaut).map (fun f => (contains_empty_clause f).2)

/-- Trace for the C5 counterexample: resolve the two unit clauses of
`qTaut` into an empty resolvent, register it, resolve again to obtain a
second, distinct empty resolvent (id 3), and universally reduce that
resolvent. -/
def c5trace : Option (Clause × Formula) :=
  (((fTautCached.bind
      (fun f => resolve f ⟨{1}, 0, true⟩ ⟨{-1}, 1, true⟩ var1)).bind
      (fun p => add_clause p.2 p.1)).bind
      (fun f => resolve f ⟨{1}, 0, true⟩ ⟨{-1}, 1, true⟩ var1)).map
      (fun p => universal_reduction p.2 p.1)

/-- A two-variable quantified state `∃1 ∀2` with both variables live, used
to witness the universal-reduction theorems. -/
def fQuantified : Formula :=
  ⟨[⟨[1], QuantifierType.EXISTS⟩, ⟨[2], QuantifierType.FORALL⟩],
    [(1, ⟨1, QuantifierType.EXISTS, ∅⟩), (2, ⟨2, QuantifierType.FORALL, ∅⟩)],
    [], [], [], 1, 0, none⟩

/-- Reachable-state fact about the memoized empty clause: whenever the
cache holds a clause, that clause has no literals (only
`generate_empty_clause` ever fills the cache). -/
def cacheInv (f : Formula) : Prop :=
  match f.empty_clause_cache with
  | some ec => ec.literals = ∅
  | none => True

instance (f : Formula) : Decidable (cacheInv f) := by
  unfold cacheInv
  split <;> infer_instance

/-- Reachable-state fact used by the elimination postcondition: every live
clause is recorded (up to Python clause equality) in the occurrence set of
each of its literals.  `add_clause` establishes this and no operation
removes live clauses from occurrence sets. -/
def occComplete (f : Formula) : Prop :=
  ∀ c ∈ f.clauses, ∀ l ∈ c.literals, ∃ d ∈ occGet f l, d.literals = c.literals

instance (f : Formula) : Decidable (occComplete f) := by
  unfold occComplete
  infer_instance

/-- The formula `Formula.__init__` builds from `qTwoVar` (checked against
the model's own evaluation of `initFormula qTwoVar`). -/
def fTwoVarInit : Formula :=
  ⟨[], [(1, ⟨1, QuantifierType.EXISTS, ∅⟩), (2, ⟨2, QuantifierType.EXISTS, ∅⟩)],
    [⟨{1, 2}, 0, true⟩, ⟨{-2, -1}, 1, true⟩],
    [(0, ⟨{1, 2}, 0, true⟩), (1, ⟨{-2, -1}, 1, true⟩)],
    [(1, [⟨{1, 2}, 0, true⟩]), (2, [⟨{1, 2}, 0, true⟩]),
      (-2, [⟨{-2, -1}, 1, true⟩]), (-1, [⟨{-2, -1}, 1, true⟩])],
    1, 0, none⟩

/-- The state `eliminate_variable` leaves behind on `fTwoVarInit` for
variable 1 (the tautological resolvent is discarded; the occurrence sets
keep the two retired clauses). -/
def fTwoVarInitElim : Formula :=
  ⟨[], [(2, ⟨2, QuantifierType.EXISTS, ∅⟩)],
    [], [],
    [(1, [⟨{1, 2}, 0, true⟩]), (2, [⟨{1, 2}, 0, true⟩]),
      (-2, [⟨{-2, -1}, 1, true⟩]), (-1, [⟨{-2, -1}, 1, true⟩])],
    1, 2, none⟩

/-- Validation condition on the quantifier blocks of a `QDimacs` (spec
§6: blocks list variable indices): every bound variable is an index
between 1 and `num_vars`. -/
def blockValidated (q : QDimacs) : Prop :=
  ∀ b ∈ q.quantifiers, ∀ w ∈ b.bound_variables, 1 ≤ w ∧ w ≤ q.num_vars

instance (q : QDimacs) : Decidable (blockValidated q) := by
  unfold blockValidated
  infer_instance

/-- Input for the C10 witness: three variables, one FORALL block binding
variable 2, one clause on variable 1; variable 3 occurs nowhere. -/
def qMixed : QDimacs := ⟨3, [[1]], [⟨[2], QuantifierType.FORALL⟩]⟩

/-- The formula `Formula.__init__` builds from `qMixed` (checked against
the model's own evaluation of `initFormula qMixed`). -/
def fMixed : Formula :=
  ⟨[⟨[2], QuantifierType.FORALL⟩],
    [(2, ⟨2, QuantifierType.FORALL, ∅⟩), (1, ⟨1, QuantifierType.EXISTS, ∅⟩),
      (3, ⟨3, QuantifierType.EXISTS, ∅⟩)],
    [⟨{1}, 0, true⟩], [(0, ⟨{1}, 0, true⟩)], [(1, [⟨{1}, 0, true⟩])],
    1, 0, none⟩

/-- Python `str` whitespace characters (the set `str.strip`, `str.split`
and friends treat as whitespace; only the first four can ever appear in
the strings this development manipulates). -/
def pyIsSpace (c : Char) : Bool :=
  decide (c = ' ') || decide (c = '\t') || decide (c = '\n') || decide (c = '\r') ||
    decide (c = '\x0b') || decide (c = '\x0c')

/-- Worker for `pySplitlines`, accumulating the current line reversed. -/
def splitlinesAux : List Char → List Char → List (List Char)
  | [], [] => []
  | [], cur => [cur.reverse]
  | c :: rest, cur =>
    if c = '\n' then cur.reverse :: splitlinesAux rest [] else
      splitlinesAux rest (c :: cur)

/-- Python `str.splitlines` restricted to the newline character (the only
line boundary `to_qdimacs` output can contain): no trailing empty line for
a trailing newline, and the empty string yields no lines. -/
def pySplitlines (l : List Char) : List (List Char) :=
  splitlinesAux l []

/-- Python `str.strip`: drop whitespace from both ends. -/
def pyStrip (l : List Char) : List Char :=
  ((l.dropWhile pyIsSpace).reverse.dropWhile pyIsSpace).reverse

/-- Worker for `pySplit`, accumulating the current token reversed. -/
def pySplitAux : List Char → List Char → List (List Char)
  | [], [] => []
  | [], cur => [cur.reverse]
  | c :: rest, cur =>
    if pyIsSpace c then
      (if cur.isEmpty then pySplitAux rest [] else
        cur.reverse :: pySplitAux rest [])
    else pySplitAux rest (c :: cur)

/-- Python `str.split()` with no argument: split on whitespace runs,
discarding empty tokens. -/
def pySplit (l : List Char) : List (List Char) :=
  pySplitAux l []

/-- Python `str.startswith` with a single-character prefix. -/
def startsWithChar (l : List Char) (c : Char) : Bool :=
  decide (l.head? = some c)

/-- Value of a nonempty all-digit character run. -/
def digitsToNat (l : List Char) : Nat :=
  l.foldl (fun acc c => acc * 10 + (c.toNat - 48)) 0

/-- The digit-run case of Python `int(str)`. -/
def digitsOpt (l : List Char) : Option Nat :=
  if l ≠ [] ∧ l.all Char.isDigit then some (digitsToNat l) else none

/-- Python `int(str)` on the tokens `str.split` produces: an optional sign
followed by a nonempty digit run (surrounding whitespace and underscore
separators, which no token of this development can contain, are not
modelled). -/
def pyIntChars (l : List Char) : Option Int :=
  match l with
  | '-' :: rest => (digitsOpt rest).map (fun m => -(m : Int))
  | '+' :: rest => (digitsOpt rest).map (fun m => (m : Int))
  | _ => (digitsOpt l).map (fun m => (m : Int))

/-- Fuelled canonical decimal rendering (the fuel `n + 1` always covers
the digit count, and structural recursion keeps the definition
kernel-reducible). -/
def natCharsAux : Nat → Nat → List Char
  | 0, _ => []
  | fuel + 1, n =>
    if n < 10 then [Char.ofNat (48 + n)]
    else natCharsAux fuel (n / 10) ++ [Char.ofNat (48 + n % 10)]

/-- Python `str` of a non-negative integer: canonical decimal digits. -/
def natChars (n : Nat) : List Char :=
  natCharsAux (n + 1) n

/-- Python `str` of an integer: a `-` sign followed by the decimal digits
for negative values. -/
def intChars (i : Int) : List Char :=
  if i < 0 then '-' :: natChars i.natAbs else natChars i.toNat

/-- Python `sep.join`. -/
def joinWith (sep : Char) : List (List Char) → List Char
  | [] => []
  | [x] => x
  | x :: y :: ys => x ++ sep :: joinWith sep (y :: ys)

/-- The literal tokens of `Clause.to_qdimacs`, in the model's canonical
(ascending signed index) frozenset order. -/
def clauseLitTokens (c : Clause) : List (List Char) :=
  (sortLits c.literals).map intChars

/-- The clause line of `Clause.to_qdimacs`:
`" ".join(str(l.literal_index()) for l in self.literals) + " 0"`. -/
def clauseLitLine (c : Clause) : List Char :=
  joinWith ' ' (clauseLitTokens c) ++ [' ', '0']

/-- The comment line of `Clause.to_qdimacs`:
`f"c Clause {self.index}, {'original' if self.is_original else 'derived'}"`. -/
def clauseCommentLine (c : Clause) : List Char :=
  "c Clause ".data ++ intChars c.index ++ ", ".data ++
    (if c.is_original then "original".data else "derived".data)

/-- Source: `Clause.to_qdimacs` — the comment line, a newline, the clause
line. -/
def clauseToQdimacs (c : Clause) : List Char :=
  clauseCommentLine c ++ '\n' :: clauseLitLine c

/-- Live clauses in ascending id order
(`sorted(self.clauses, key=lambda c: c.index)`); on the duplicate ids the
engine can produce (see C3) the model's insertion sort may order ties
differently from CPython's timsort, which no settled claim depends on. -/
def sortClausesByIndex (cs : List Clause) : List Clause :=
  cs.insertionSort (fun a b => a.index ≤ b.index)

/-- The header line of `Formula.to_qdimacs`:
`f"p cnf {len(self.variables_by_index)} {len(self.clauses)}"`. -/
def formulaHeaderLine (f : Formula) : List Char :=
  "p cnf ".data ++ natChars f.variables_by_index.length ++
    ' ' :: natChars f.clauses.length

/-- Source: `Formula.to_qdimacs`: header and per-clause strings joined
with newlines. -/
def toQdimacsChars (f : Formula) : List Char :=
  joinWith '\n'
    (formulaHeaderLine f :: (sortClausesByIndex f.clauses).map clauseToQdimacs)

/-- Source: `Formula.to_qdimacs`, at `String` type. -/
def to_qdimacs (f : Formula) : String :=
  ⟨toQdimacsChars f⟩

/-- The header checks of `parse.from_qdimacs`: a `p cnf <vars> <clauses>`
line with a positive variable count and a non-negative clause count; every
`raise QDimacsParseError` (and the `ValueError` of a failed `int`) is
`none`. -/
def parseHeaderTokens : List (List Char) → Option (Int × Int)
  | [] => none
  | h0 :: htail =>
    if h0 ≠ ['p'] then none
    else match htail with
      | [] => none
      | h1 :: h2tail =>
        if h1 ≠ ['c', 'n', 'f'] then none
        else match h2tail with
          | [h2, h3] =>
            (match pyIntChars h2, pyIntChars h3 with
              | some nv, some nc =>
                if nv ≤ 0 then none
                else if nc < 0 then none
                else some (nv, nc)
              | _, _ => none)
          | _ => none

/-- The header checks of `parse.from_qdimacs` applied to a line. -/
def parseHeader (line : List Char) : Option (Int × Int) :=
  parseHeaderTokens (pySplit line)

/-- One body line of `parse.from_qdimacs`: a quantifier block (a line
starting with `a` or `e`) or a clause, appended to the accumulators;
`none` models every raised `QDimacsParseError` (and the unreachable
`IndexError` on `literals[-1]` for an empty token list, which a stripped
non-empty line cannot produce). -/
def parseBodyLine (num_vars : Int)
    (acc : List (List Int) × List QuantifierBlock) (line : List Char) :
    Option (List (List Int) × List QuantifierBlock) :=
  let qt : Option QuantifierType :=
    if startsWithChar line 'a' then some QuantifierType.FORALL
    else if startsWithChar line 'e' then some QuantifierType.EXISTS
    else none
  match qt with
  | some t =>
    let vtoks := pySplit (line.drop 1)
    if vtoks = [] then none
    else if vtoks.getLast? ≠ some ['0'] then none
    else if vtoks.dropLast = [] then none
    else match vtoks.dropLast.mapM pyIntChars with
      | none => none
      | some vs => some (acc.1, acc.2 ++ [⟨vs, t⟩])
  | none =>
    match pySplit line with
    | [] => none
    | toks =>
      if toks.getLast? ≠ some ['0'] then none
      else match toks.dropLast.mapM pyIntChars with
        | none => none
        | some clause =>
          if clause = [] then none
          else if clause.any (fun l => decide (l = 0)) then none
          else if clause.any (fun l => decide (litVar l > num_vars)) then none
          else if decide (clause ∈ acc.1) then none
          else some (acc.1 ++ [clause], acc.2)

/-- The line filter of `parse.from_qdimacs`: keep the lines that are
neither blank (after stripping) nor comments. -/
def keepLine (l : List Char) : Bool :=
  !(pyStrip l).isEmpty && !startsWithChar l 'c'

/-- Source: `parse.from_qdimacs`, at character-list level: strip and keep
the non-comment non-blank lines, parse the header, then fold the body
lines in order. -/
def fromQdimacsChars (s : List Char) : Option QDimacs :=
  let lines := ((pySplitlines s).filter keepLine).map pyStrip
  match lines with
  | [] => none
  | hline :: rest =>
    match parseHeader hline with
    | none => none
    | some (nv, _) =>
      match rest.foldlM (parseBodyLine nv)
          (([], []) : List (List Int) × List QuantifierBlock) with
      | none => none
      | some (cls, qs) => some ⟨nv, cls, qs⟩

/-- Source: `parse.from_qdimacs`, at `String` type. -/
def from_qdimacs (s : String) : Option QDimacs :=
  fromQdimacsChars s.data

/-- Source: `lib.solve_file`: parse, then solve. -/
def solve_file (s : String) : Option String :=
  (from_qdimacs s).map solve

/-- Input for the C9 counterexample: eliminating variable 1 leaves a
formula with one live variable but a clause on variable 2. -/
def qShrink : QDimacs := ⟨2, [[2], [1]], []⟩

/-- The state of `qShrink` after eliminating variable 1: one live
variable (2), one live clause `{2}`. -/
def fShrunk : Option Formula :=
  (initFormula qShrink).bind (fun f => eliminate_variable f var1)

/-! ### Theorems -/

/-- C1: the spec (§8 scenario 1 and `lib_test.test_solve`) requires the
verdict `SAT` for `num_vars=1, clauses=[[1]]` with an empty prefix, but
`lib.solve` is a placeholder returning the string `UNSAT` for every input,
so the top-level solve operation answers `UNSAT` on this formula. -/
theorem c1_solve_returns_unsat_on_sat_input :
    solve qUnitPos = "UNSAT" ∧ solve qUnitPos ≠ "SAT" := by
  exact ⟨rfl, by decide⟩

/-- C4: `add_clause` never fails on a duplicate clause id.  After building
the formula for `qUnitPos`, id 0 is registered, yet adding a different
clause that reuses id 0 returns normally and silently changes the formula
(the broken assert compares the int id against the set of clauses). -/
theorem c4_add_clause_duplicate_id_not_rejected :
    (fUnitPos.map (fun f => (alookup f.clauses_by_index 0).isSome) = some true) ∧
    (fUnitPos.bind (fun f => add_clause f ⟨{-1}, 0, false⟩)) ≠ none ∧
    (fUnitPos.bind (fun f => add_clause f ⟨{-1}, 0, false⟩)) ≠ fUnitPos := by
  refine ⟨by decide, by decide, by decide⟩

/-- C2: after eliminating variable 1 from `[[1,2],[-1,-2]]` the retired
clause `{1,2}` (id 0) is still recorded in the occurrence set of literal 2
although no live clause remains, so the occurrence sets do not equal the
sets of live clauses containing the literal; the corrupted index then
makes the next elimination fail inside `resolve`. -/
theorem c2_occurrences_stale_after_eliminate :
    (fTwoVarElim.map (fun f => (occGet f 2, f.clauses))
      = some ([⟨{1, 2}, 0, true⟩], [])) ∧
    (fTwoVarElim.bind (fun f => eliminate_variable f var2) = none) := by
  refine ⟨by decide, by decide⟩

/-- C3: eliminating variable 1 from `[[1,2],[1,3],[-1]]` collects two
resolvents `{2}` and `{3}` that both receive the clause id 3 (the id map
is consulted before either resolvent is registered), leaving two distinct
live clauses with the same id. -/
theorem c3_resolvents_share_clause_id :
    (fThreeVarElim.map (fun f => f.clauses)
      = some [⟨{2}, 3, false⟩, ⟨{3}, 3, false⟩]) ∧
    ({2} : Finset Int) ≠ ({3} : Finset Int) := by
  refine ⟨by decide, by decide⟩

/-- Helper for C8: a `List.any` with the constantly-false predicate (the
evaluated form of the broken `add_clause` assert condition) is false. -/
theorem any_const_false {α : Type} (l : List α) :
    l.any (fun _ => false) = false := by
  induction l with
  | nil => rfl
  | cons x xs ih => simp [ih]

/-- C8: inserting a clause whose literal set equals that of an
already-live clause leaves the formula completely unchanged (same live
clause set, same id map, same occurrence sets, hence the same live clause
count): `add_clause` returns the input state untouched. -/
theorem c8_add_clause_duplicate_idempotent (f : Formula) (c : Clause)
    (h : ∃ d ∈ f.clauses, d.literals = c.literals) :
    add_clause f c = some f := by
  have h1 : f.clauses.any (fun d => decide (d.literals = c.literals)) = true := by
    rw [List.any_eq_true]
    obtain ⟨d, hm, he⟩ := h
    exact ⟨d, hm, by simp [he]⟩
  have h2 : is_clause_subsumed f c = true := by
    unfold is_clause_subsumed
    rw [h1]
    rfl
  unfold add_clause
  rw [any_const_false, h2]
  rfl

/-- Witness for C8 at a concrete state: `fWitness8` (the formula built
from `num_vars=1, clauses=[[1]]`) holds a live clause with literal set
`{1}`; re-inserting that literal set under a fresh id and derived
provenance returns the state unchanged. -/
theorem c8_witness :
    (∃ d ∈ fWitness8.clauses, d.literals = ({1} : Finset Int)) ∧
      add_clause fWitness8 ⟨{1}, 7, false⟩ = some fWitness8 :=
  ⟨by decide,
    c8_add_clause_duplicate_idempotent fWitness8 ⟨{1}, 7, false⟩ (by decide)⟩

/-- The sorted literal list of a clause carries the same multiset as the
literal set itself. -/
theorem sortLits_coe (s : Finset Int) : (↑(sortLits s) : Multiset Int) = s.val := by
  rcases s with ⟨m, hm⟩
  revert hm
  refine Quotient.inductionOn m ?_
  intro l hm
  exact Quot.sound (List.perm_insertionSort _ l)

/-- Membership in the sorted literal list is membership in the clause. -/
theorem mem_sortLits {s : Finset Int} {l : Int} : l ∈ sortLits s ↔ l ∈ s := by
  rw [← Multiset.mem_coe, sortLits_coe]
  rfl

/-- The sorted literal list has the clause's cardinality. -/
theorem length_sortLits (s : Finset Int) : (sortLits s).length = s.card := by
  have h := congrArg Multiset.card (sortLits_coe s)
  simpa using h

/-- The sorted literal list has no duplicates. -/
theorem nodup_sortLits (s : Finset Int) : (sortLits s).Nodup := by
  have h : (↑(sortLits s) : Multiset Int).Nodup := by rw [sortLits_coe]; exact s.nodup
  exact h

/-- Rebuilding the finset from the sorted literal list is the identity. -/
theorem toFinset_sortLits (s : Finset Int) : (sortLits s).toFinset = s := by
  ext a
  rw [List.mem_toFinset, mem_sortLits]

/-- A filter and its complement split a list's length. -/
theorem length_filter_partition {α : Type} (p : α → Bool) (l : List α) :
    (l.filter p).length + (l.filter (fun a => ! p a)).length = l.length := by
  induction l with
  | nil => rfl
  | cons x xs ih =>
    cases h : p x <;> simp [List.filter_cons, h, ← ih] <;> omega

/-- Characterization of the `existential_literals` list. -/
theorem mem_urExistential {f : Formula} {c : Clause} {e : Int} :
    e ∈ urExistential f c ↔
      e ∈ c.literals ∧ litIsUniversal (varBlockData f.quantifiers) e = false := by
  unfold urExistential
  rw [List.mem_filter, mem_sortLits, Bool.not_eq_true']

/-- Characterization of the `universal_literals` list. -/
theorem mem_urUniversal {f : Formula} {c : Clause} {u : Int} :
    u ∈ urUniversal f c ↔
      u ∈ c.literals ∧ litIsUniversal (varBlockData f.quantifiers) u = true := by
  unfold urUniversal
  rw [List.mem_filter, mem_sortLits]

/-- The code's `can_reduce` test coincides with the spec-side reduction
rule: the universal literal's level is strictly greater than the level of
at least one existential literal of the original clause. -/
theorem canReduce_eq_spec (f : Formula) (c : Clause) (u : Int) :
    canReduce (varBlockData f.quantifiers) (urExistential f c) u =
      specReducible f.quantifiers c u := by
  rw [Bool.eq_iff_iff]
  unfold canReduce specReducible
  rw [List.any_eq_true, decide_eq_true_eq]
  constructor
  · rintro ⟨e, he, hm⟩
    obtain ⟨hemem, hU⟩ := mem_urExistential.mp he
    refine ⟨e, hemem, hU, ?_⟩
    revert hm
    unfold specBlockLevelGt specUnivLevel
    cases alookup (varBlockData f.quantifiers) (litVar e) with
    | none => intro hm; exact absurd hm (by simp)
    | some p =>
      rcases p with ⟨lv, qt⟩
      intro hm
      exact hm
  · rintro ⟨e, hemem, hU, hm⟩
    refine ⟨e, mem_urExistential.mpr ⟨hemem, hU⟩, ?_⟩
    revert hm
    unfold specBlockLevelGt specUnivLevel
    cases alookup (varBlockData f.quantifiers) (litVar e) with
    | none => intro hm; exact absurd hm (by simp)
    | some p =>
      rcases p with ⟨lv, qt⟩
      intro hm
      exact hm

/-- Characterization of the `reduced_literals` list: exactly the literals
claim C5 keeps. -/
theorem mem_urReduced {f : Formula} {c : Clause} {a : Int} :
    a ∈ urReduced f c ↔
      a ∈ c.literals ∧
        (litIsUniversal (varBlockData f.quantifiers) a = false ∨
          specReducible f.quantifiers c a = false) := by
  unfold urReduced
  rw [List.mem_append, List.mem_filter, mem_urExistential, mem_urUniversal,
    Bool.not_eq_true', canReduce_eq_spec]
  constructor
  · rintro (⟨h1, h2⟩ | ⟨⟨h1, h2⟩, h3⟩)
    exacts [⟨h1, Or.inl h2⟩, ⟨h1, Or.inr h3⟩]
  · rintro ⟨h1, h2 | h3⟩
    · exact Or.inl ⟨h1, h2⟩
    · cases hU : litIsUniversal (varBlockData f.quantifiers) a with
      | false => exact Or.inl ⟨h1, rfl⟩
      | true => exact Or.inr ⟨⟨h1, rfl⟩, h3⟩

/-- The `reduced_literals` list has no duplicates. -/
theorem nodup_urReduced (f : Formula) (c : Clause) : (urReduced f c).Nodup := by
  unfold urReduced
  refine List.Nodup.append ((nodup_sortLits _).filter _)
    (((nodup_sortLits _).filter _).filter _) ?_
  intro a ha hb
  have h1 := (mem_urExistential.mp ha).2
  have h2 := (mem_urUniversal.mp (List.mem_filter.mp hb).1).2
  rw [h1] at h2
  exact Bool.false_ne_true h2

/-- The finset of the `reduced_literals` list is the literal set claim C5
prescribes. -/
theorem urReduced_toFinset (f : Formula) (c : Clause) :
    (urReduced f c).toFinset = specReducedSet f.quantifiers c := by
  ext a
  rw [List.mem_toFinset, mem_urReduced, specReducedSet, Finset.mem_filter]

/-- If the `reduced_literals` list is empty the clause had no literals. -/
theorem urReduced_nil_card (f : Formula) (c : Clause)
    (h : urReduced f c = []) : c.literals.card = 0 := by
  obtain ⟨hE, hK⟩ := List.append_eq_nil.mp h
  have hU : urUniversal f c = [] := by
    have hfil : (urUniversal f c).filter
        (fun u => ! canReduce (varBlockData f.quantifiers) (urExistential f c) u) =
        urUniversal f c := by
      refine List.filter_eq_self.mpr ?_
      intro u hu
      rw [hE]
      rfl
    rw [hfil] at hK
    exact hK
  have hpart := length_filter_partition
    (fun l => litIsUniversal (varBlockData f.quantifiers) l) (sortLits c.literals)
  have hUl : (urUniversal f c).length = 0 := by rw [hU]; rfl
  have hEl : (urExistential f c).length = 0 := by rw [hE]; rfl
  rw [← length_sortLits]
  have hU' : ((sortLits c.literals).filter
      (fun l => litIsUniversal (varBlockData f.quantifiers) l)).length = 0 := hUl
  have hE' : ((sortLits c.literals).filter
      (fun l => ! litIsUniversal (varBlockData f.quantifiers) l)).length = 0 := hEl
  omega

/-- The no-drop test of `universal_reduction`: the `reduced_literals` list
has the clause's full cardinality iff no universal literal of the clause
is reducible. -/
theorem urReduced_length_eq_iff (f : Formula) (c : Clause) :
    (urReduced f c).length = c.literals.card ↔
      ∀ u ∈ urUniversal f c,
        canReduce (varBlockData f.quantifiers) (urExistential f c) u = false := by
  have hpart := length_filter_partition
    (fun l => litIsUniversal (varBlockData f.quantifiers) l) (sortLits c.literals)
  have hlen : (urReduced f c).length =
      (urExistential f c).length + ((urUniversal f c).filter
        (fun u => ! canReduce (varBlockData f.quantifiers) (urExistential f c) u)).length := by
    unfold urReduced
    rw [List.length_append]
  have hcard : (urExistential f c).length + (urUniversal f c).length =
      c.literals.card := by
    unfold urExistential urUniversal
    rw [← length_sortLits]
    omega
  constructor
  · intro h u hu
    have hfl : ((urUniversal f c).filter
        (fun u => ! canReduce (varBlockData f.quantifiers) (urExistential f c) u)).length =
        (urUniversal f c).length := by omega
    have hself := List.Sublist.eq_of_length (List.filter_sublist _) hfl
    have := List.filter_eq_self.mp hself u hu
    simpa using this
  · intro h
    have hself : (urUniversal f c).filter
        (fun u => ! canReduce (varBlockData f.quantifiers) (urExistential f c) u) =
        urUniversal f c := by
      refine List.filter_eq_self.mpr ?_
      intro u hu
      simp [h u hu]
    rw [hlen, hself]
    exact hcard

/-- C7: when the quantifier prefix is empty, or no universal literal of
the clause has level strictly greater than the level of some existential
literal of the clause, `universal_reduction` returns the original clause
itself (same id, same identity) and leaves the formula state untouched. -/
theorem c7_universal_reduction_noop (f : Formula) (c : Clause)
    (h : f.quantifiers = [] ∨ ∀ u ∈ c.literals,
      litIsUniversal (varBlockData f.quantifiers) u = true →
        specReducible f.quantifiers c u = false) :
    universal_reduction f c = (c, f) := by
  unfold universal_reduction
  by_cases hq : f.quantifiers = []
  · rw [if_pos hq]
  · rcases h with h | h
    · exact absurd h hq
    · rw [if_neg hq, if_pos ?_]
      rw [urReduced_length_eq_iff]
      intro u hu
      obtain ⟨h1, h2⟩ := mem_urUniversal.mp hu
      rw [canReduce_eq_spec]
      exact h u h1 h2

/-- Witness for C7: in the prefix `∃1 ∀2` the unit clause `{2}` has no
existential literal, so its universal literal is not reducible and the
clause comes back unchanged with its id 5. -/
theorem c7_witness :
    universal_reduction fQuantified ⟨{2}, 5, true⟩ = (⟨{2}, 5, true⟩, fQuantified) :=
  c7_universal_reduction_noop fQuantified ⟨{2}, 5, true⟩ (Or.inr (by decide))

/-- C5 (amended): for a clause all of whose variables are live,
`universal_reduction` returns a clause whose literal set is exactly the
set claim C5 prescribes — the existential literals plus the universal
literals that are not reducible, each judged independently against the
clause's original existential literals — and when that set is empty the
clause itself was already empty and is returned unchanged (the
canonical-empty-clause branch is unreachable for such clauses). -/
theorem c5_universal_reduction_literals (f : Formula) (c : Clause)
    (hlive : ∀ l ∈ c.literals, (alookup f.variables_by_index (litVar l)).isSome = true) :
    (universal_reduction f c).1.literals = specReducedSet f.quantifiers c ∧
      (specReducedSet f.quantifiers c = ∅ → universal_reduction f c = (c, f)) := by
  by_cases hq : f.quantifiers = []
  · have hU : ∀ l, litIsUniversal (varBlockData f.quantifiers) l = false := by
      rw [hq]
      intro l
      rfl
    have hspec : specReducedSet f.quantifiers c = c.literals := by
      refine Finset.filter_true_of_mem ?_
      intro l _
      exact Or.inl (hU l)
    have hres : universal_reduction f c = (c, f) := by
      unfold universal_reduction
      rw [if_pos hq]
    rw [hres, hspec]
    exact ⟨rfl, fun _ => rfl⟩
  · have hsub : specReducedSet f.quantifiers c ⊆ c.literals := Finset.filter_subset _ _
    have htf := urReduced_toFinset f c
    have hcardR : (urReduced f c).toFinset.card = (urReduced f c).length :=
      List.toFinset_card_of_nodup (nodup_urReduced f c)
    by_cases hlen : (urReduced f c).length = c.literals.card
    · have hres : universal_reduction f c = (c, f) := by
        unfold universal_reduction
        rw [if_neg hq, if_pos hlen]
      have hspec : specReducedSet f.quantifiers c = c.literals := by
        refine Finset.eq_of_subset_of_card_le hsub ?_
        rw [← htf] at hsub ⊢
        omega
      rw [hres, hspec]
      exact ⟨rfl, fun _ => rfl⟩
    · have hne : urReduced f c ≠ [] := by
        intro hnil
        have h0 := urReduced_nil_card f c hnil
        rw [hnil] at hlen
        exact hlen (by simp [h0])
      have hcorr : urCorrected f c = urReduced f c := by
        unfold urCorrected
        refine List.filter_eq_self.mpr ?_
        intro a ha
        exact hlive a (mem_urReduced.mp ha).1
      have hres : universal_reduction f c =
          (⟨(urReduced f c).toFinset, (next_fresh_clause_index f).1, false⟩,
            (next_fresh_clause_index f).2) := by
        unfold universal_reduction
        rw [if_neg hq, if_neg hlen, hcorr, if_neg hne]
      constructor
      · rw [hres, htf]
      · intro hempty
        exfalso
        apply hne
        have : (urReduced f c).toFinset = ∅ := by rw [htf, hempty]
        exact List.toFinset_eq_empty_iff _ |>.mp this

/-- Witness for C5 at a concrete state: in the prefix `∃1 ∀2` the clause
`{1, 2}` has both variables live; the universal literal 2 (level 1) sits
strictly inside the existential literal 1 (level 0), so the reduced
literal set is `{1}`. -/
theorem c5_witness :
    (∀ l ∈ (⟨{1, 2}, 0, true⟩ : Clause).literals,
      (alookup fQuantified.variables_by_index (litVar l)).isSome = true) ∧
    (universal_reduction fQuantified ⟨{1, 2}, 0, true⟩).1.literals =
      specReducedSet fQuantified.quantifiers ⟨{1, 2}, 0, true⟩ :=
  ⟨by decide,
    (c5_universal_reduction_literals fQuantified ⟨{1, 2}, 0, true⟩ (by decide)).1⟩

/-- Counterexample to C5 as stated: in the traced run on `qTaut` the
canonical empty clause is cached with id 2, the second empty resolvent
carries id 3, and `universal_reduction` applied to that resolvent — a
clause of which no literal survives — returns the resolvent itself (id 3),
not the formula's canonical cached empty clause (id 2). -/
theorem c5_counterexample :
    (c5trace.map (fun p => (p.1, p.2.empty_clause_cache)) =
      some (⟨∅, 3, false⟩, some ⟨∅, 2, false⟩)) ∧
    (⟨∅, 3, false⟩ : Clause) ≠ ⟨∅, 2, false⟩ := by
  exact ⟨by decide, by decide⟩

/-- A lookup succeeds exactly when the key is among the map's keys. -/
theorem alookup_isSome_iff {α : Type} (m : List (Int × α)) (k : Int) :
    (alookup m k).isSome = true ↔ k ∈ m.map Prod.fst := by
  induction m with
  | nil => simp [alookup]
  | cons p rest ih =>
    rcases p with ⟨k', v'⟩
    rw [List.map_cons, List.mem_cons]
    by_cases h : k' = k
    · subst h
      simp [alookup]
    · simp only [alookup, if_neg h]
      rw [ih]
      constructor
      · exact fun hmem => Or.inr hmem
      · rintro (h1 | h1)
        · exact absurd h1.symm h
        · exact h1

/-- Deleting a present key from a map with distinct keys shrinks it by
exactly one entry. -/
theorem adel_length_of_nodup {α : Type} (m : List (Int × α)) (k : Int)
    (hN : (m.map Prod.fst).Nodup) (hk : k ∈ m.map Prod.fst) :
    (adel m k).length + 1 = m.length := by
  induction m with
  | nil => simp at hk
  | cons p rest ih =>
    rcases p with ⟨k', v'⟩
    rw [List.map_cons, List.nodup_cons] at hN
    by_cases h : k' = k
    · subst h
      have hall : List.filter (fun p => decide (p.1 ≠ k')) rest = rest := by
        refine List.filter_eq_self.mpr ?_
        intro a ha
        simp only [decide_eq_true_eq]
        intro hak
        exact absurd (List.mem_map.mpr ⟨a, ha, hak⟩) hN.1
      unfold adel
      rw [List.filter_cons, if_neg (by simp), hall]
      simp
    · have hk' : k ∈ rest.map Prod.fst := by
        rcases List.mem_cons.mp hk with h1 | h1
        · exact absurd h1.symm h
        · exact h1
      have hrec := ih hN.2 hk'
      unfold adel at hrec ⊢
      rw [List.filter_cons, if_pos (by simp [h])]
      simp only [List.length_cons]
      omega

/-- A cache equality transports the cache invariant. -/
theorem cacheInv_of_eq {f g : Formula}
    (h : g.empty_clause_cache = f.empty_clause_cache) (hf : cacheInv f) :
    cacheInv g := by
  unfold cacheInv at hf ⊢
  rw [h]
  exact hf

/-- A successful `resolve` keeps the variable map, live set and cache, and
its resolvent omits every literal on the pivot variable. -/
theorem resolve_some_state {f : Formula} {c1 c2 : Clause} {v : Variable}
    {p : Clause × Formula} (h : resolve f c1 c2 v = some p) :
    p.2.variables_by_index = f.variables_by_index ∧ p.2.clauses = f.clauses ∧
    p.2.empty_clause_cache = f.empty_clause_cache ∧
    ∀ l ∈ p.1.literals, litVar l ≠ v.index := by
  unfold resolve at h
  split at h
  · exact absurd h (by simp)
  · split at h
    · exact absurd h (by simp)
    · split at h
      · exact absurd h (by simp)
      · rw [Option.some_inj] at h
        subst h
        refine ⟨rfl, rfl, rfl, ?_⟩
        intro l hl
        exact (Finset.mem_filter.mp hl).2

/-- `universal_reduction` keeps the variable map and the live set, and
preserves the cache invariant. -/
theorem universal_reduction_state (f : Formula) (c : Clause) :
    (universal_reduction f c).2.variables_by_index = f.variables_by_index ∧
    (universal_reduction f c).2.clauses = f.clauses ∧
    (cacheInv f → cacheInv (universal_reduction f c).2) := by
  unfold universal_reduction
  split
  · exact ⟨rfl, rfl, id⟩
  · split
    · exact ⟨rfl, rfl, id⟩
    · split
      · unfold generate_empty_clause
        split
        · exact ⟨rfl, rfl, id⟩
        · refine ⟨rfl, rfl, ?_⟩
          intro _
          unfold cacheInv
          rfl
      · exact ⟨rfl, rfl, id⟩

/-- Under the cache invariant, `universal_reduction` never introduces a
literal: the result's literal set is contained in the input's. -/
theorem universal_reduction_literals_subset (f : Formula) (c : Clause)
    (hc : cacheInv f) :
    ∀ l ∈ (universal_reduction f c).1.literals, l ∈ c.literals := by
  unfold universal_reduction
  split
  · exact fun l hl => hl
  · split
    · exact fun l hl => hl
    · split
      · intro l hl
        exfalso
        revert hl
        unfold generate_empty_clause
        split
        · unfold cacheInv at hc
          next ec heq =>
            rw [heq] at hc
            simp [hc]
        · simp
      · intro l hl
        rw [List.mem_toFinset] at hl
        exact (mem_urReduced.mp (List.mem_of_mem_filter hl)).1

/-- Invariant of the resolvent-collection loop: the variable map and live
set stay those of the starting formula, the cache invariant is preserved,
and every collected resolvent omits the pivot variable. -/
theorem elim_collect_inv (v : Variable) (f0 : Formula) :
    ∀ (pairs : List (Clause × Clause)) (acc res : List Clause × Formula),
      pairs.foldlM (elimStep v) acc = some res →
      acc.2.variables_by_index = f0.variables_by_index →
      acc.2.clauses = f0.clauses →
      cacheInv acc.2 →
      (∀ r ∈ acc.1, ∀ l ∈ r.literals, litVar l ≠ v.index) →
      res.2.variables_by_index = f0.variables_by_index ∧
        res.2.clauses = f0.clauses ∧ cacheInv res.2 ∧
        (∀ r ∈ res.1, ∀ l ∈ r.literals, litVar l ≠ v.index) := by
  intro pairs
  induction pairs with
  | nil =>
    intro acc res h h1 h2 h3 h4
    simp only [List.foldlM_nil, pure, Option.some_inj] at h
    subst h
    exact ⟨h1, h2, h3, h4⟩
  | cons pn ps ih =>
    intro acc res h h1 h2 h3 h4
    rw [List.foldlM_cons] at h
    rcases Option.bind_eq_some.mp h with ⟨acc', hstep, hrest⟩
    unfold elimStep at hstep
    rcases Option.bind_eq_some.mp hstep with ⟨r, hres, hpure⟩
    simp only [pure, Option.some_inj] at hpure
    obtain ⟨hrv, hrc, hrcache, hrlit⟩ := resolve_some_state hres
    obtain ⟨huv, huc, hucache⟩ := universal_reduction_state r.2 r.1
    have hcache' : cacheInv r.2 := cacheInv_of_eq hrcache h3
    refine ih acc' res hrest ?_ ?_ ?_ ?_
    · rw [← hpure]
      exact huv.trans (hrv.trans h1)
    · rw [← hpure]
      exact huc.trans (hrc.trans h2)
    · rw [← hpure]
      exact hucache hcache'
    · rw [← hpure]
      intro rr hrr l hl
      rcases List.mem_append.mp hrr with hmem | hmem
      · exact h4 rr hmem l hl
      · rw [List.mem_singleton] at hmem
        subst hmem
        exact hrlit l (universal_reduction_literals_subset r.2 r.1 hcache' l hl)

/-- The retirement loop never touches the variable map, the occurrence
sets or the cache. -/
theorem retire_fold_fields (touched : List Clause) (g : Formula) :
    (touched.foldl retireClause g).variables_by_index = g.variables_by_index ∧
      (touched.foldl retireClause g).occurrences = g.occurrences ∧
      (touched.foldl retireClause g).empty_clause_cache = g.empty_clause_cache := by
  induction touched generalizing g with
  | nil => exact ⟨rfl, rfl, rfl⟩
  | cons t ts ih => exact ih (retireClause g t)

/-- Clauses surviving the retirement loop were live before it. -/
theorem retire_fold_clauses_sub (touched : List Clause) (g : Formula) :
    ∀ c ∈ (touched.foldl retireClause g).clauses, c ∈ g.clauses := by
  induction touched generalizing g with
  | nil => exact fun c hc => hc
  | cons t ts ih =>
    intro c hc
    exact List.mem_of_mem_filter (ih (retireClause g t) c hc)

/-- No clause surviving the retirement loop is (Python-)equal to a retired
one. -/
theorem retire_fold_removes (touched : List Clause) (g : Formula) :
    ∀ c ∈ (touched.foldl retireClause g).clauses, ∀ d ∈ touched,
      d.literals ≠ c.literals := by
  induction touched generalizing g with
  | nil =>
    intro c _ d hd
    simp at hd
  | cons t ts ih =>
    intro c hc d hd
    rcases List.mem_cons.mp hd with heq | hd'
    · subst heq
      have hc' := retire_fold_clauses_sub ts (retireClause g d) c hc
      have hne := (List.mem_filter.mp hc').2
      simp only [decide_eq_true_eq] at hne
      exact fun he => hne he.symm
    · exact ih (retireClause g t) c hc d hd'

/-- A successful `add_clause` keeps the variable map and extends the live
set by at most the inserted clause. -/
theorem add_clause_some_inv {g g' : Formula} {c : Clause}
    (h : add_clause g c = some g') :
    g'.variables_by_index = g.variables_by_index ∧
      ∀ d ∈ g'.clauses, d ∈ g.clauses ∨ d = c := by
  unfold add_clause at h
  rw [any_const_false] at h
  simp only [Bool.false_eq_true, if_false] at h
  split at h
  · rw [Option.some_inj] at h
    subst h
    exact ⟨rfl, fun d hd => Or.inl hd⟩
  · rw [Option.some_inj] at h
    subst h
    refine ⟨rfl, ?_⟩
    intro d hd
    rcases List.mem_append.mp hd with h1 | h1
    · exact Or.inl h1
    · exact Or.inr (List.mem_singleton.mp h1)

/-- Folding `add_clause` over a resolvent list keeps the variable map and
only ever adds clauses from that list. -/
theorem add_fold_inv (resolvents : List Clause) :
    ∀ (g g' : Formula),
      resolvents.foldlM (fun h rc => add_clause h rc) g = some g' →
      g'.variables_by_index = g.variables_by_index ∧
        ∀ d ∈ g'.clauses, d ∈ g.clauses ∨ d ∈ resolvents := by
  induction resolvents with
  | nil =>
    intro g g' h
    simp only [List.foldlM_nil, pure, Option.some_inj] at h
    subst h
    exact ⟨rfl, fun d hd => Or.inl hd⟩
  | cons r rs ih =>
    intro g g' h
    rw [List.foldlM_cons] at h
    rcases Option.bind_eq_some.mp h with ⟨g1, hstep, hrest⟩
    obtain ⟨hv1, hcl1⟩ := add_clause_some_inv hstep
    obtain ⟨hv2, hcl2⟩ := ih g1 g' hrest
    refine ⟨hv2.trans hv1, ?_⟩
    intro d hd
    rcases hcl2 d hd with h1 | h1
    · rcases hcl1 d h1 with h2 | h2
      · exact Or.inl h2
      · exact Or.inr (by simp [h2])
    · exact Or.inr (List.mem_cons_of_mem _ h1)

/-- C6: if `eliminate_variable` is called on a live variable and returns
normally then the variable map afterwards is exactly the old map with the
variable's entry deleted (so no other variable is removed), the live
variable count has dropped by exactly one, and no live clause mentions the
variable.  The hypotheses `occComplete` and `cacheInv` are facts of every
reachable state: every live clause is indexed (up to Python clause
equality) in its literals' occurrence sets, and the cached empty clause,
when present, has no literals. -/
theorem c6_eliminate_variable_post (f : Formula) (v : Variable) (f' : Formula)
    (hOcc : occComplete f) (hC : cacheInv f)
    (hN : (f.variables_by_index.map Prod.fst).Nodup)
    (hE : eliminate_variable f v = some f') :
    f'.variables_by_index = adel f.variables_by_index v.index ∧
      f'.variables_by_index.length + 1 = f.variables_by_index.length ∧
      (∀ c ∈ f'.clauses, ∀ l ∈ c.literals, litVar l ≠ v.index) := by
  unfold eliminate_variable at hE
  by_cases hv : alookup f.variables_by_index v.index = none
  · rw [if_pos hv] at hE
    exact absurd hE (by simp)
  · rw [if_neg hv] at hE
    dsimp only [] at hE
    split at hE
    · exact absurd hE (by simp)
    next resolvents f1 heq =>
      obtain ⟨h1v, h1c, h1cache, hrlits⟩ :=
        elim_collect_inv v f _ ([], f) (resolvents, f1) heq rfl rfl hC
          (fun r hr => absurd hr (List.not_mem_nil r))
      obtain ⟨hfv, hfc⟩ := add_fold_inv resolvents _ f' hE
      have hmem : v.index ∈ f.variables_by_index.map Prod.fst :=
        (alookup_isSome_iff _ _).mp (Option.ne_none_iff_isSome.mp hv)
      have hvars : f'.variables_by_index = adel f.variables_by_index v.index := by
        rw [hfv]
        show adel (((occGet f v.index ++ List.filter _ (occGet f (-v.index))).foldl
          retireClause f1).variables_by_index) v.index = _
        rw [(retire_fold_fields _ f1).1, h1v]
      refine ⟨hvars, ?_, ?_⟩
      · rw [hvars]
        exact adel_length_of_nodup f.variables_by_index v.index hN hmem
      · intro c hc l hl
        rcases hfc c hc with hin | hres2
        · have hcf2 : c ∈ ((occGet f v.index ++ (occGet f (-v.index)).filter
              (fun n => ! (occGet f v.index).any
                (fun p => decide (p.literals = n.literals)))).foldl
              retireClause f1).clauses := hin
          have hcf : c ∈ f.clauses := by
            rw [← h1c]
            exact retire_fold_clauses_sub _ f1 c hcf2
          intro habs
          obtain ⟨d, hd, hdl⟩ := hOcc c hcf l hl
          have h0 : (0 : Int) ≤ v.index := by
            rw [← habs]
            exact abs_nonneg l
          have hlpm : l = v.index ∨ l = -v.index := by
            unfold litVar at habs
            exact (abs_eq h0).mp habs
          have hd' : ∃ d' ∈ occGet f v.index ++ (occGet f (-v.index)).filter
              (fun n => ! (occGet f v.index).any
                (fun p => decide (p.literals = n.literals))),
              d'.literals = c.literals := by
            rcases hlpm with hL | hL
            · rw [hL] at hd
              exact ⟨d, List.mem_append_left _ hd, hdl⟩
            · rw [hL] at hd
              by_cases hdup : (occGet f v.index).any
                  (fun p => decide (p.literals = d.literals)) = true
              · obtain ⟨p, hp, hpe⟩ := List.any_eq_true.mp hdup
                simp only [decide_eq_true_eq] at hpe
                exact ⟨p, List.mem_append_left _ hp, hpe.trans hdl⟩
              · refine ⟨d, List.mem_append_right _ ?_, hdl⟩
                rw [List.mem_filter]
                refine ⟨hd, ?_⟩
                simp only [Bool.not_eq_true] at hdup
                rw [hdup]
                rfl
          obtain ⟨d', hd'm, hd'e⟩ := hd'
          exact absurd hd'e (retire_fold_removes _ f1 c hcf2 d' hd'm)
        · exact hrlits c hres2 l hl

/-- Witness for C6 on the concrete two-variable state: eliminating
variable 1 from `[[1,2],[-1,-2]]` returns normally, removes exactly that
variable's entry, and leaves no live clause mentioning it. -/
theorem c6_witness :
    eliminate_variable fTwoVarInit var1 = some fTwoVarInitElim ∧
      (fTwoVarInitElim.variables_by_index =
          adel fTwoVarInit.variables_by_index var1.index ∧
        fTwoVarInitElim.variables_by_index.length + 1 =
          fTwoVarInit.variables_by_index.length ∧
        (∀ c ∈ fTwoVarInitElim.clauses, ∀ l ∈ c.literals,
          litVar l ≠ var1.index)) :=
  ⟨by decide,
    c6_eliminate_variable_post fTwoVarInit var1 fTwoVarInitElim
      (by decide) (by decide) (by decide) (by decide)⟩

/-- Assignment stores the value under its key. -/
theorem alookup_aset_self {α : Type} (m : List (Int × α)) (k : Int) (v : α) :
    alookup (aset m k v) k = some v := by
  induction m with
  | nil => simp [aset, alookup]
  | cons p rest ih =>
    rcases p with ⟨k1, v1⟩
    simp only [aset]
    by_cases h1 : k1 = k
    · rw [if_pos h1]
      simp [alookup]
    · rw [if_neg h1]
      simp only [alookup, if_neg h1]
      exact ih

/-- Assignment leaves other keys' lookups unchanged. -/
theorem alookup_aset_ne {α : Type} (m : List (Int × α)) (k : Int) (v : α)
    (k' : Int) (h : k' ≠ k) :
    alookup (aset m k v) k' = alookup m k' := by
  induction m with
  | nil =>
    simp only [aset, alookup]
    rw [if_neg (Ne.symm h)]
  | cons p rest ih =>
    rcases p with ⟨k1, v1⟩
    simp only [aset]
    by_cases h1 : k1 = k
    · subst h1
      rw [if_pos rfl]
      simp only [alookup]
      rw [if_neg (Ne.symm h), if_neg (Ne.symm h)]
    · rw [if_neg h1]
      simp only [alookup]
      by_cases h2 : k1 = k'
      · rw [if_pos h2, if_pos h2]
      · rw [if_neg h2, if_neg h2]
        exact ih

/-- Inversion of a successful `createFreshAt`. -/
theorem createFreshAt_inv {g g' : Formula} {i : Int} {qt : QuantifierType}
    {deps : Finset Int} (h : createFreshAt g i qt deps = some g') :
    alookup g.variables_by_index i = none ∧
      g' = { g with
        variables_by_index := aset g.variables_by_index i ⟨i, qt, deps⟩ } := by
  unfold createFreshAt at h
  split at h
  · exact absurd h (by simp)
  · next hg =>
    refine ⟨Option.not_isSome_iff_eq_none.mp hg, (Option.some_inj.mp h).symm⟩

/-- A successful `create_fresh_variable` keeps every existing entry. -/
theorem create_fresh_variable_preserves {g g' : Formula} {idx : Int}
    {qt : QuantifierType} {deps : Finset Int}
    (h : create_fresh_variable g idx qt deps = some g') :
    ∀ k w, alookup g.variables_by_index k = some w →
      alookup g'.variables_by_index k = some w := by
  intro k w hk
  unfold create_fresh_variable at h
  split at h
  · obtain ⟨hnone, hg'⟩ := createFreshAt_inv h
    subst hg'
    have hne : k ≠ (next_fresh_variable_index g).1 := by
      intro he
      rw [← he] at hnone
      rw [show (next_fresh_variable_index g).2.variables_by_index =
        g.variables_by_index from rfl] at hnone
      rw [hnone] at hk
      exact Option.noConfusion hk
    show alookup (aset (next_fresh_variable_index g).2.variables_by_index _ _) k = some w
    rw [alookup_aset_ne _ _ _ _ hne]
    exact hk
  · obtain ⟨hnone, hg'⟩ := createFreshAt_inv h
    subst hg'
    have hne : k ≠ idx := by
      intro he
      rw [he, hnone] at hk
      exact Option.noConfusion hk
    show alookup (aset g.variables_by_index _ _) k = some w
    rw [alookup_aset_ne _ _ _ _ hne]
    exact hk

/-- A successful `create_fresh_variable` with a non-zero index registers
exactly that index. -/
theorem create_fresh_variable_keys {g g' : Formula} {idx : Int}
    {qt : QuantifierType} {deps : Finset Int} (hidx : idx ≠ 0)
    (h : create_fresh_variable g idx qt deps = some g') :
    alookup g.variables_by_index idx = none ∧
      g'.variables_by_index = aset g.variables_by_index idx ⟨idx, qt, deps⟩ := by
  unfold create_fresh_variable at h
  rw [if_neg hidx] at h
  obtain ⟨hnone, hg'⟩ := createFreshAt_inv h
  subst hg'
  exact ⟨hnone, rfl⟩

/-- New keys of a successful `create_fresh_variable` with a non-zero index
are exactly that index. -/
theorem create_fresh_variable_newkey {g g' : Formula} {idx : Int}
    {qt : QuantifierType} {deps : Finset Int} (hidx : idx ≠ 0)
    (h : create_fresh_variable g idx qt deps = some g') :
    ∀ k, (alookup g'.variables_by_index k).isSome = true →
      (alookup g.variables_by_index k).isSome = true ∨ k = idx := by
  intro k hk
  obtain ⟨hnone, hvars⟩ := create_fresh_variable_keys hidx h
  by_cases he : k = idx
  · exact Or.inr he
  · rw [hvars, alookup_aset_ne _ _ _ _ he] at hk
    exact Or.inl hk

/-- A quantifier-phase step keeps every existing variable entry. -/
theorem quantVarStep_preserves {qsAll : List QuantifierBlock}
    {b : QuantifierBlock} {acc res : Finset Int × Formula} {v : Int}
    (h : quantVarStep qsAll b acc v = some res) :
    ∀ k w, alookup acc.2.variables_by_index k = some w →
      alookup res.2.variables_by_index k = some w := by
  intro k w hk
  unfold quantVarStep at h
  rcases Option.bind_eq_some.mp h with ⟨f', hcr, hpure⟩
  simp only [pure, Option.some_inj] at hpure
  rw [← hpure]
  exact create_fresh_variable_preserves hcr k w hk

/-- A quantifier-phase step on a non-zero bound variable adds at most that
variable's index. -/
theorem quantVarStep_newkey {qsAll : List QuantifierBlock}
    {b : QuantifierBlock} {acc res : Finset Int × Formula} {v : Int}
    (hv : v ≠ 0) (h : quantVarStep qsAll b acc v = some res) :
    ∀ k, (alookup res.2.variables_by_index k).isSome = true →
      (alookup acc.2.variables_by_index k).isSome = true ∨ k = v := by
  intro k hk
  unfold quantVarStep at h
  rcases Option.bind_eq_some.mp h with ⟨f', hcr, hpure⟩
  simp only [pure, Option.some_inj] at hpure
  rw [← hpure] at hk
  exact create_fresh_variable_newkey hv hcr k hk

/-- The per-block loop of the quantifier phase keeps existing entries. -/
theorem quantInner_preserves (qsAll : List QuantifierBlock) (b : QuantifierBlock) :
    ∀ (ws : List Int) (acc res : Finset Int × Formula),
      ws.foldlM (quantVarStep qsAll b) acc = some res →
      ∀ k w, alookup acc.2.variables_by_index k = some w →
        alookup res.2.variables_by_index k = some w := by
  intro ws
  induction ws with
  | nil =>
    intro acc res h k w hk
    simp only [List.foldlM_nil, pure, Option.some_inj] at h
    rw [← h]
    exact hk
  | cons v vs ih =>
    intro acc res h k w hk
    rw [List.foldlM_cons] at h
    rcases Option.bind_eq_some.mp h with ⟨acc1, hstep, hrest⟩
    exact ih acc1 res hrest k w (quantVarStep_preserves hstep k w hk)

/-- The per-block loop registers keys only from its own variable list. -/
theorem quantInner_newkeys (qsAll : List QuantifierBlock) (b : QuantifierBlock) :
    ∀ (ws : List Int) (acc res : Finset Int × Formula),
      ws.foldlM (quantVarStep qsAll b) acc = some res →
      (∀ w ∈ ws, w ≠ 0) →
      ∀ k, (alookup res.2.variables_by_index k).isSome = true →
        (alookup acc.2.variables_by_index k).isSome = true ∨ k ∈ ws := by
  intro ws
  induction ws with
  | nil =>
    intro acc res h _ k hk
    simp only [List.foldlM_nil, pure, Option.some_inj] at h
    rw [← h] at hk
    exact Or.inl hk
  | cons v vs ih =>
    intro acc res h hz k hk
    rw [List.foldlM_cons] at h
    rcases Option.bind_eq_some.mp h with ⟨acc1, hstep, hrest⟩
    rcases ih acc1 res hrest (fun w hw => hz w (List.mem_cons_of_mem _ hw)) k hk with
      h1 | h1
    · rcases quantVarStep_newkey (hz v (List.mem_cons_self _ _)) hstep k h1 with
        h2 | h2
      · exact Or.inl h2
      · exact Or.inr (by simp [h2])
    · exact Or.inr (List.mem_cons_of_mem _ h1)

/-- The whole quantifier phase keeps existing entries. -/
theorem quantOuter_preserves (qsAll : List QuantifierBlock) :
    ∀ (qs : List QuantifierBlock) (acc res : Finset Int × Formula),
      qs.foldlM (fun acc b => b.bound_variables.foldlM (quantVarStep qsAll b) acc)
        acc = some res →
      ∀ k w, alookup acc.2.variables_by_index k = some w →
        alookup res.2.variables_by_index k = some w := by
  intro qs
  induction qs with
  | nil =>
    intro acc res h k w hk
    simp only [List.foldlM_nil, pure, Option.some_inj] at h
    rw [← h]
    exact hk
  | cons b bs ih =>
    intro acc res h k w hk
    rw [List.foldlM_cons] at h
    rcases Option.bind_eq_some.mp h with ⟨acc1, hstep, hrest⟩
    exact ih acc1 res hrest k w (quantInner_preserves qsAll b _ acc acc1 hstep k w hk)

/-- The whole quantifier phase registers keys only from the blocks. -/
theorem quantOuter_newkeys (qsAll : List QuantifierBlock) :
    ∀ (qs : List QuantifierBlock) (acc res : Finset Int × Formula),
      qs.foldlM (fun acc b => b.bound_variables.foldlM (quantVarStep qsAll b) acc)
        acc = some res →
      (∀ b ∈ qs, ∀ w ∈ b.bound_variables, w ≠ 0) →
      ∀ k, (alookup res.2.variables_by_index k).isSome = true →
        (alookup acc.2.variables_by_index k).isSome = true ∨
          ∃ b ∈ qs, k ∈ b.bound_variables := by
  intro qs
  induction qs with
  | nil =>
    intro acc res h _ k hk
    simp only [List.foldlM_nil, pure, Option.some_inj] at h
    rw [← h] at hk
    exact Or.inl hk
  | cons b bs ih =>
    intro acc res h hz k hk
    rw [List.foldlM_cons] at h
    rcases Option.bind_eq_some.mp h with ⟨acc1, hstep, hrest⟩
    rcases ih acc1 res hrest (fun b' hb' => hz b' (List.mem_cons_of_mem _ hb')) k hk
      with h1 | h1
    · rcases quantInner_newkeys qsAll b _ acc acc1 hstep
        (hz b (List.mem_cons_self _ _)) k h1 with h2 | h2
      · exact Or.inl h2
      · exact Or.inr ⟨b, List.mem_cons_self _ _, h2⟩
    · obtain ⟨b', hb', hkb⟩ := h1
      exact Or.inr ⟨b', List.mem_cons_of_mem _ hb', hkb⟩

/-- A fill step keeps existing entries. -/
theorem fillStep_preserves {g g1 : Formula} {i : Int}
    (h : fillStep g i = some g1) :
    ∀ k w, alookup g.variables_by_index k = some w →
      alookup g1.variables_by_index k = some w := by
  intro k w hk
  unfold fillStep at h
  split at h
  · rw [Option.some_inj] at h
    rw [← h]
    exact hk
  · exact create_fresh_variable_preserves h k w hk

/-- The fill loop keeps existing entries. -/
theorem fill_fold_preserves :
    ∀ (l : List Int) (g g' : Formula), l.foldlM fillStep g = some g' →
      ∀ k w, alookup g.variables_by_index k = some w →
        alookup g'.variables_by_index k = some w := by
  intro l
  induction l with
  | nil =>
    intro g g' h k w hk
    simp only [List.foldlM_nil, pure, Option.some_inj] at h
    rw [← h]
    exact hk
  | cons j js ih =>
    intro g g' h k w hk
    rw [List.foldlM_cons] at h
    rcases Option.bind_eq_some.mp h with ⟨g1, hstep, hrest⟩
    exact ih g1 g' hrest k w (fillStep_preserves hstep k w hk)

/-- After the fill loop every processed non-zero index has an entry. -/
theorem fill_fold_ensures :
    ∀ (l : List Int) (g g' : Formula), l.foldlM fillStep g = some g' →
      (∀ i ∈ l, i ≠ 0) →
      ∀ i ∈ l, (alookup g'.variables_by_index i).isSome = true := by
  intro l
  induction l with
  | nil =>
    intro g g' _ _ i hi
    simp at hi
  | cons j js ih =>
    intro g g' h hz i hi
    rw [List.foldlM_cons] at h
    rcases Option.bind_eq_some.mp h with ⟨g1, hstep, hrest⟩
    rcases List.mem_cons.mp hi with heq | hi'
    · subst heq
      have hentry : ∃ w, alookup g1.variables_by_index i = some w := by
        unfold fillStep at hstep
        split at hstep
        · next hs =>
          rw [Option.some_inj] at hstep
          rw [← hstep]
          exact Option.isSome_iff_exists.mp hs
        · obtain ⟨_, hvars⟩ :=
            create_fresh_variable_keys (hz i (List.mem_cons_self _ _)) hstep
          exact ⟨_, hvars ▸ alookup_aset_self _ _ _⟩
      obtain ⟨w, hw⟩ := hentry
      rw [fill_fold_preserves js g1 g' hrest i w hw]
      rfl
    · exact ih g1 g' hrest (fun x hx => hz x (List.mem_cons_of_mem _ hx)) i hi'

/-- A fill step registers (at most) its own index. -/
theorem fillStep_other {g g1 : Formula} {i : Int} (hi : i ≠ 0)
    (h : fillStep g i = some g1) :
    ∀ k, k ≠ i → alookup g1.variables_by_index k = alookup g.variables_by_index k := by
  intro k hk
  unfold fillStep at h
  split at h
  · rw [Option.some_inj] at h
    rw [← h]
  · obtain ⟨_, hvars⟩ := create_fresh_variable_keys hi h
    rw [hvars, alookup_aset_ne _ _ _ _ hk]

/-- An index absent before the fill loop and listed exactly once comes out
of the loop as a fresh existential variable with no dependencies. -/
theorem fill_fold_value :
    ∀ (l : List Int) (g g' : Formula), l.foldlM fillStep g = some g' →
      l.Nodup → (∀ i ∈ l, i ≠ 0) →
      ∀ i ∈ l, alookup g.variables_by_index i = none →
        alookup g'.variables_by_index i =
          some ⟨i, QuantifierType.EXISTS, ∅⟩ := by
  intro l
  induction l with
  | nil =>
    intro g g' _ _ _ i hi
    simp at hi
  | cons j js ih =>
    intro g g' h hnd hz i hi hnone
    rw [List.foldlM_cons] at h
    rcases Option.bind_eq_some.mp h with ⟨g1, hstep, hrest⟩
    rw [List.nodup_cons] at hnd
    rcases List.mem_cons.mp hi with heq | hi'
    · subst heq
      have hg1 : alookup g1.variables_by_index i =
          some ⟨i, QuantifierType.EXISTS, ∅⟩ := by
        unfold fillStep at hstep
        split at hstep
        · next hs =>
          rw [hnone] at hs
          exact absurd hs (by simp)
        · obtain ⟨_, hvars⟩ :=
            create_fresh_variable_keys (hz i (List.mem_cons_self _ _)) hstep
          rw [hvars]
          exact alookup_aset_self _ _ _
      exact fill_fold_preserves js g1 g' hrest i _ hg1
    · have hg1 : alookup g1.variables_by_index i = none := by
        rw [fillStep_other (hz j (List.mem_cons_self _ _)) hstep i
          (fun he => hnd.1 (he ▸ hi')), hnone]
      exact ih g1 g' hrest hnd.2 (fun x hx => hz x (List.mem_cons_of_mem _ hx)) i hi' hg1

/-- A clause-literal step keeps existing entries. -/
theorem clauseVarStep_preserves {g g1 : Formula} {lit : Int}
    (h : clauseVarStep g lit = some g1) :
    ∀ k w, alookup g.variables_by_index k = some w →
      alookup g1.variables_by_index k = some w := by
  intro k w hk
  unfold clauseVarStep at h
  split at h
  · rw [Option.some_inj] at h
    rw [← h]
    exact hk
  · exact create_fresh_variable_preserves h k w hk

/-- The clause-literal loop keeps existing entries. -/
theorem clauseVars_fold_preserves :
    ∀ (lits : List Int) (g g1 : Formula),
      lits.foldlM clauseVarStep g = some g1 →
      ∀ k w, alookup g.variables_by_index k = some w →
        alookup g1.variables_by_index k = some w := by
  intro lits
  induction lits with
  | nil =>
    intro g g1 h k w hk
    simp only [List.foldlM_nil, pure, Option.some_inj] at h
    rw [← h]
    exact hk
  | cons x xs ih =>
    intro g g1 h k w hk
    rw [List.foldlM_cons] at h
    rcases Option.bind_eq_some.mp h with ⟨g2, hstep, hrest⟩
    exact ih g2 g1 hrest k w (clauseVarStep_preserves hstep k w hk)

/-- One clause-phase step keeps existing entries. -/
theorem clauseStep_preserves {g g' : Formula} {p : Nat × List Int}
    (h : clauseStep g p = some g') :
    ∀ k w, alookup g.variables_by_index k = some w →
      alookup g'.variables_by_index k = some w := by
  intro k w hk
  unfold clauseStep at h
  rcases Option.bind_eq_some.mp h with ⟨g1, hvars, hrest⟩
  rcases Option.bind_eq_some.mp hrest with ⟨cl, _, hadd⟩
  have h1 := clauseVars_fold_preserves p.2 g g1 hvars k w hk
  rw [(add_clause_some_inv hadd).1]
  exact h1

/-- The clause phase keeps existing entries. -/
theorem clausePhase_preserves :
    ∀ (l : List (Nat × List Int)) (g g' : Formula),
      l.foldlM clauseStep g = some g' →
      ∀ k w, alookup g.variables_by_index k = some w →
        alookup g'.variables_by_index k = some w := by
  intro l
  induction l with
  | nil =>
    intro g g' h k w hk
    simp only [List.foldlM_nil, pure, Option.some_inj] at h
    rw [← h]
    exact hk
  | cons x xs ih =>
    intro g g' h k w hk
    rw [List.foldlM_cons] at h
    rcases Option.bind_eq_some.mp h with ⟨g1, hstep, hrest⟩
    exact ih g1 g' hrest k w (clauseStep_preserves hstep k w hk)

/-- C10: constructing a formula from a validated `QDimacs` registers a
live variable for every index from 1 to `num_vars`; an index bound by no
quantifier block (whether or not it occurs in a clause) is registered as
an existential variable with an empty dependency set. -/
theorem c10_init_registers_all_indices (q : QDimacs) (f : Formula)
    (hval : blockValidated q) (hinit : initFormula q = some f) :
    (∀ i : Int, 1 ≤ i → i ≤ q.num_vars →
      (alookup f.variables_by_index i).isSome = true) ∧
    (∀ i : Int, 1 ≤ i → i ≤ q.num_vars →
      (∀ b ∈ q.quantifiers, i ∉ b.bound_variables) →
      alookup f.variables_by_index i =
        some ⟨i, QuantifierType.EXISTS, ∅⟩) := by
  unfold initFormula at hinit
  dsimp only [] at hinit
  rcases Option.bind_eq_some.mp hinit with ⟨p, hquant, hrest⟩
  rcases Option.bind_eq_some.mp hrest with ⟨f1, hfill, hclause⟩
  have hmemL : ∀ i : Int, 1 ≤ i → i ≤ q.num_vars → i ∈ fillIndices q.num_vars := by
    intro i h1 h2
    unfold fillIndices
    simp only [List.mem_map, List.mem_range]
    exact ⟨(i - 1).toNat, by omega, by omega⟩
  have hzL : ∀ i ∈ fillIndices q.num_vars, i ≠ 0 := by
    intro i hi
    unfold fillIndices at hi
    simp only [List.mem_map, List.mem_range] at hi
    obtain ⟨k, _, rfl⟩ := hi
    omega
  have hndL : (fillIndices q.num_vars).Nodup := by
    unfold fillIndices
    refine List.Nodup.map ?_ (List.nodup_range _)
    intro a b hab
    simpa using hab
  unfold initFillPhase at hfill
  unfold initClausePhase at hclause
  constructor
  · intro i h1 h2
    have hf1 := fill_fold_ensures _ p.2 f1 hfill hzL i (hmemL i h1 h2)
    obtain ⟨w, hw⟩ := Option.isSome_iff_exists.mp hf1
    rw [Option.isSome_iff_exists]
    exact ⟨w, clausePhase_preserves _ f1 f hclause i w hw⟩
  · intro i h1 h2 hnoblock
    have hpnone : alookup p.2.variables_by_index i = none := by
      by_contra hne
      have hs : (alookup p.2.variables_by_index i).isSome = true :=
        Option.ne_none_iff_isSome.mp hne
      unfold initQuantifierPhase at hquant
      rcases quantOuter_newkeys q.quantifiers q.quantifiers _ p hquant
          (fun b hb w hw => by have := hval b hb w hw; omega) i hs with hcase | hcase
      · simp [alookup] at hcase
      · obtain ⟨b, hb, hib⟩ := hcase
        exact hnoblock b hb hib
    have hf1 : alookup f1.variables_by_index i =
        some ⟨i, QuantifierType.EXISTS, ∅⟩ :=
      fill_fold_value _ p.2 f1 hfill hndL hzL i (hmemL i h1 h2) hpnone
    exact clausePhase_preserves _ f1 f hclause i _ hf1

/-- Witness for C10 on `qMixed`: construction succeeds, all indices 1..3
are registered, and the unbound, unclaused index 3 carries an existential
variable with an empty dependency set. -/
theorem c10_witness :
    (blockValidated qMixed ∧ initFormula qMixed = some fMixed) ∧
      ((∀ i : Int, 1 ≤ i → i ≤ qMixed.num_vars →
        (alookup fMixed.variables_by_index i).isSome = true) ∧
      (∀ i : Int, 1 ≤ i → i ≤ qMixed.num_vars →
        (∀ b ∈ qMixed.quantifiers, i ∉ b.bound_variables) →
        alookup fMixed.variables_by_index i =
          some ⟨i, QuantifierType.EXISTS, ∅⟩)) :=
  ⟨⟨by decide, by decide⟩,
    c10_init_registers_all_indices qMixed fMixed (by decide) (by decide)⟩

/-- Counterexample to C9 as stated: after eliminating variable 1 from
`[[2],[1]]` the formula still has the live clause `{2}` but only one live
variable, so its serialization reads `p cnf 1 1` with clause line `2 0`,
and `from_qdimacs` rejects it ("Variable out of range"): parsing the
serialization of this reachable formula does not succeed. -/
theorem c9_roundtrip_counterexample :
    fShrunk.map (fun f =>
      (from_qdimacs (to_qdimacs f), f.clauses.map (fun c => sortLits c.literals))) =
      some (none, [[2]]) := by
  decide

/-- Decimal digit characters are rendered with the expected code. -/
theorem char_digit_toNat : ∀ m, m < 10 → (Char.ofNat (48 + m)).toNat = 48 + m := by
  intro m hm
  interval_cases m <;> decide

/-- Decimal digit characters are digits. -/
theorem char_digit_isDigit : ∀ m, m < 10 → (Char.ofNat (48 + m)).isDigit = true := by
  intro m hm
  interval_cases m <;> decide

/-- The fuelled renderer, run with enough fuel, produces a nonempty
all-digit run whose value is the rendered number. -/
theorem natCharsAux_spec :
    ∀ (fuel n : Nat), n < fuel →
      natCharsAux fuel n ≠ [] ∧ (natCharsAux fuel n).all Char.isDigit = true ∧
        digitsToNat (natCharsAux fuel n) = n := by
  intro fuel
  induction fuel with
  | zero => intro n h; exact absurd h (by omega)
  | succ fuel ih =>
    intro n h
    unfold natCharsAux
    by_cases h10 : n < 10
    · rw [if_pos h10]
      refine ⟨by simp, ?_, ?_⟩
      · interval_cases n <;> decide
      · interval_cases n <;> decide
    · rw [if_neg h10]
      have hlt : n / 10 < fuel := by omega
      obtain ⟨hne, hall, hval⟩ := ih (n / 10) hlt
      have hm : n % 10 < 10 := Nat.mod_lt _ (by omega)
      refine ⟨by simp, ?_, ?_⟩
      · rw [List.all_append]
        refine (Bool.and_eq_true _ _).mpr ⟨hall, ?_⟩
        simp [char_digit_isDigit (n % 10) hm]
      · unfold digitsToNat at hval ⊢
        rw [List.foldl_append]
        simp only [List.foldl_cons, List.foldl_nil]
        rw [hval, char_digit_toNat (n % 10) hm]
        omega

/-- `natChars` produces a nonempty all-digit run with the right value. -/
theorem natChars_spec (n : Nat) :
    natChars n ≠ [] ∧ (natChars n).all Char.isDigit = true ∧
      digitsToNat (natChars n) = n :=
  natCharsAux_spec (n + 1) n (by omega)

/-- A digit character differs from every non-digit character. -/
theorem isDigit_ne {c : Char} (h : c.isDigit = true) :
    ∀ d : Char, d.isDigit = false → c ≠ d :=
  fun d hd he => absurd (he ▸ h) (by simp [hd])

/-- A digit character is not Python whitespace. -/
theorem isDigit_not_space {c : Char} (h : c.isDigit = true) :
    pyIsSpace c = false := by
  unfold pyIsSpace
  have h1 : c ≠ ' ' := isDigit_ne h ' ' (by decide)
  have h2 : c ≠ '\t' := isDigit_ne h '\t' (by decide)
  have h3 : c ≠ '\n' := isDigit_ne h '\n' (by decide)
  have h4 : c ≠ '\r' := isDigit_ne h '\r' (by decide)
  have h5 : c ≠ '\x0b' := isDigit_ne h '\x0b' (by decide)
  have h6 : c ≠ '\x0c' := isDigit_ne h '\x0c' (by decide)
  simp [h1, h2, h3, h4, h5, h6]

/-- Parsing a nonempty digit run yields its value. -/
theorem pyIntChars_digits {l : List Char} (hne : l ≠ [])
    (hall : l.all Char.isDigit = true) :
    pyIntChars l = some ((digitsToNat l : Int)) := by
  obtain ⟨c, cs, rfl⟩ : ∃ c cs, l = c :: cs := by
    cases l with
    | nil => exact absurd rfl hne
    | cons c cs => exact ⟨c, cs, rfl⟩
  have hc : c.isDigit = true := by
    rw [List.all_cons, Bool.and_eq_true] at hall
    exact hall.1
  unfold pyIntChars
  split
  · next rest heq =>
    injection heq with h1 h2
    exact absurd (h1 ▸ hc) (by decide)
  · next rest heq =>
    injection heq with h1 h2
    exact absurd (h1 ▸ hc) (by decide)
  · unfold digitsOpt
    rw [if_pos ⟨hne, hall⟩]
    rfl

/-- Parsing the rendering of a natural number recovers it. -/
theorem pyIntChars_natChars (n : Nat) : pyIntChars (natChars n) = some (n : Int) := by
  obtain ⟨hne, hall, hval⟩ := natChars_spec n
  rw [pyIntChars_digits hne hall, hval]

/-- Parsing the rendering of an integer recovers it (`int(str(i)) == i`). -/
theorem pyIntChars_intChars (i : Int) : pyIntChars (intChars i) = some i := by
  unfold intChars
  by_cases hneg : i < 0
  · rw [if_pos hneg]
    obtain ⟨hne, hall, hval⟩ := natChars_spec i.natAbs
    have hred : pyIntChars ('-' :: natChars i.natAbs) =
        (digitsOpt (natChars i.natAbs)).map (fun m => -(m : Int)) := rfl
    rw [hred]
    unfold digitsOpt
    rw [if_pos ⟨hne, hall⟩]
    show some (-((digitsToNat (natChars i.natAbs) : Nat) : Int)) = some i
    rw [hval]
    congr 1
    omega
  · rw [if_neg hneg]
    rw [pyIntChars_natChars]
    congr 1
    omega


/-- Consuming an empty tail: a nonempty accumulated line is emitted. -/
theorem splitlinesAux_nil {cur : List Char} (h : cur ≠ []) :
    splitlinesAux [] cur = [cur.reverse] := by
  cases cur with
  | nil => exact absurd rfl h
  | cons c cs => rfl

/-- Unfolding equation of `splitlinesAux` at a cons. -/
theorem splitlinesAux_cons (c : Char) (rest cur : List Char) :
    splitlinesAux (c :: rest) cur =
      if c = '\n' then cur.reverse :: splitlinesAux rest [] else
        splitlinesAux rest (c :: cur) := rfl

/-- A newline-free prefix is accumulated verbatim. -/
theorem splitlinesAux_no_nl {x : List Char} (h : '\n' ∉ x) :
    ∀ (r acc : List Char),
      splitlinesAux (x ++ r) acc = splitlinesAux r (x.reverse ++ acc) := by
  induction x with
  | nil => intro r acc; simp
  | cons c cx ih =>
    intro r acc
    have hc : ¬ c = '\n' := fun he => h (he ▸ List.mem_cons_self _ _)
    have hcx : '\n' ∉ cx := fun hm => h (List.mem_cons_of_mem _ hm)
    rw [List.cons_append, splitlinesAux_cons, if_neg hc, ih hcx r (c :: acc),
      List.reverse_cons, List.append_assoc, List.singleton_append]

/-- Splitting the newline-join of nonempty newline-free lines recovers
them. -/
theorem pySplitlines_join {L : List (List Char)} (hne : L ≠ [])
    (hx : ∀ x ∈ L, '\n' ∉ x ∧ x ≠ []) :
    pySplitlines (joinWith '\n' L) = L := by
  induction L with
  | nil => exact absurd rfl hne
  | cons x xs ih =>
    obtain ⟨hxn, hxe⟩ := hx x (List.mem_cons_self _ _)
    cases xs with
    | nil =>
      show splitlinesAux x [] = [x]
      have h0 : splitlinesAux (x ++ []) [] = splitlinesAux [] (x.reverse ++ []) :=
        splitlinesAux_no_nl hxn [] []
      rw [List.append_nil, List.append_nil] at h0
      rw [h0, splitlinesAux_nil (by simp [hxe]), List.reverse_reverse]
    | cons y ys =>
      show splitlinesAux (x ++ '\n' :: joinWith '\n' (y :: ys)) [] = x :: y :: ys
      rw [splitlinesAux_no_nl hxn _ [], List.append_nil, splitlinesAux_cons,
        if_pos rfl, List.reverse_reverse]
      have := ih (by simp) (fun z hz => hx z (List.mem_cons_of_mem _ hz))
      rw [show splitlinesAux (joinWith '\n' (y :: ys)) [] =
        pySplitlines (joinWith '\n' (y :: ys)) from rfl, this]

/-- Consuming an empty tail in token splitting. -/
theorem pySplitAux_nil {cur : List Char} (h : cur ≠ []) :
    pySplitAux [] cur = [cur.reverse] := by
  cases cur with
  | nil => exact absurd rfl h
  | cons c cs => rfl

/-- Unfolding equation of `pySplitAux` at a cons. -/
theorem pySplitAux_cons (c : Char) (rest cur : List Char) :
    pySplitAux (c :: rest) cur =
      if pyIsSpace c then
        (if cur.isEmpty then pySplitAux rest [] else
          cur.reverse :: pySplitAux rest [])
      else pySplitAux rest (c :: cur) := rfl

/-- A whitespace-free run is accumulated verbatim. -/
theorem pySplitAux_token {t : List Char} (hsp : ∀ c ∈ t, pyIsSpace c = false) :
    ∀ (r acc : List Char),
      pySplitAux (t ++ r) acc = pySplitAux r (t.reverse ++ acc) := by
  induction t with
  | nil => intro r acc; simp
  | cons c ct ih =>
    intro r acc
    have hc : pyIsSpace c = false := hsp c (List.mem_cons_self _ _)
    have hct : ∀ d ∈ ct, pyIsSpace d = false :=
      fun d hd => hsp d (List.mem_cons_of_mem _ hd)
    rw [List.cons_append, pySplitAux_cons, if_neg (by simp [hc]), ih hct r (c :: acc),
      List.reverse_cons, List.append_assoc, List.singleton_append]

/-- Splitting the space-join of nonempty whitespace-free tokens recovers
them. -/
theorem pySplit_join {T : List (List Char)}
    (h : ∀ t ∈ T, t ≠ [] ∧ ∀ c ∈ t, pyIsSpace c = false) :
    pySplit (joinWith ' ' T) = T := by
  induction T with
  | nil => rfl
  | cons t ts ih =>
    obtain ⟨hte, htc⟩ := h t (List.mem_cons_self _ _)
    cases ts with
    | nil =>
      show pySplitAux t [] = [t]
      have h0 : pySplitAux (t ++ []) [] = pySplitAux [] (t.reverse ++ []) :=
        pySplitAux_token htc [] []
      rw [List.append_nil, List.append_nil] at h0
      rw [h0, pySplitAux_nil (by simp [hte]), List.reverse_reverse]
    | cons u us =>
      show pySplitAux (t ++ ' ' :: joinWith ' ' (u :: us)) [] = t :: u :: us
      rw [pySplitAux_token htc _ [], List.append_nil, pySplitAux_cons,
        if_pos (by decide), if_neg (by simp [hte]), List.reverse_reverse]
      have := ih (fun z hz => h z (List.mem_cons_of_mem _ hz))
      rw [show pySplitAux (joinWith ' ' (u :: us)) [] =
        pySplit (joinWith ' ' (u :: us)) from rfl, this]

/-- A list whose head is not matched by the predicate is kept whole. -/
theorem dropWhile_eq_self_head {p : Char → Bool} {l : List Char}
    (h : ∀ c, l.head? = some c → p c = false) : l.dropWhile p = l := by
  cases l with
  | nil => rfl
  | cons c cs =>
    rw [List.dropWhile_cons, if_neg (by simp [h c rfl])]

/-- Stripping is the identity when neither end is whitespace. -/
theorem pyStrip_eq_self {l : List Char}
    (h1 : ∀ c, l.head? = some c → pyIsSpace c = false)
    (h2 : ∀ c, l.reverse.head? = some c → pyIsSpace c = false) :
    pyStrip l = l := by
  unfold pyStrip
  rw [dropWhile_eq_self_head h1, dropWhile_eq_self_head h2, List.reverse_reverse]

/-- The head of an optional list is one of its members. -/
theorem head?_some_mem {l : List Char} {c : Char} (h : l.head? = some c) :
    c ∈ l := by
  cases l with
  | nil => exact absurd h (by simp)
  | cons x xs =>
    rw [List.head?_cons, Option.some_inj] at h
    rw [h]
    exact List.mem_cons_self _ _

/-- The head of an append with a nonempty left part. -/
theorem head?_append_left {l₁ l₂ : List Char} (h : l₁ ≠ []) :
    (l₁ ++ l₂).head? = l₁.head? := by
  cases l₁ with
  | nil => exact absurd rfl h
  | cons c cs => rfl

/-- Unfolding equation of `joinWith` at a cons with a nonempty tail. -/
theorem joinWith_cons (sep : Char) (x : List Char) {ys : List (List Char)}
    (h : ys ≠ []) : joinWith sep (x :: ys) = x ++ sep :: joinWith sep ys := by
  cases ys with
  | nil => exact absurd rfl h
  | cons y ys' => rfl

/-- Appending a final token to a nonempty join. -/
theorem joinWith_concat (sep : Char) {T : List (List Char)} (x : List Char)
    (h : T ≠ []) : joinWith sep (T ++ [x]) = joinWith sep T ++ sep :: x := by
  induction T with
  | nil => exact absurd rfl h
  | cons t ts ih =>
    cases ts with
    | nil => rfl
    | cons u us =>
      rw [List.cons_append, joinWith_cons sep t (by simp),
        joinWith_cons sep t (by simp), ih (by simp)]
      simp

/-- Every character of a join is the separator or comes from a token. -/
theorem joinWith_mem {sep : Char} {c : Char} :
    ∀ {T : List (List Char)}, c ∈ joinWith sep T → c = sep ∨ ∃ x ∈ T, c ∈ x := by
  intro T
  induction T with
  | nil => intro h; exact absurd h (List.not_mem_nil c)
  | cons t ts ih =>
    intro h
    cases ts with
    | nil => exact Or.inr ⟨t, List.mem_cons_self _ _, h⟩
    | cons u us =>
      rw [joinWith_cons sep t (by simp)] at h
      rcases List.mem_append.mp h with h1 | h1
      · exact Or.inr ⟨t, List.mem_cons_self _ _, h1⟩
      · rcases List.mem_cons.mp h1 with h2 | h2
        · exact Or.inl h2
        · rcases ih h2 with h3 | ⟨x, hx, hcx⟩
          · exact Or.inl h3
          · exact Or.inr ⟨x, List.mem_cons_of_mem _ hx, hcx⟩

/-- The head of a join starting with a nonempty token. -/
theorem joinWith_head? {sep : Char} {x : List Char} (xs : List (List Char))
    (h : x ≠ []) : (joinWith sep (x :: xs)).head? = x.head? := by
  cases xs with
  | nil => rfl
  | cons y ys =>
    rw [joinWith_cons sep x (by simp)]
    exact head?_append_left h

/-- An integer renders to a nonempty token of a sign and digits. -/
theorem intChars_spec (i : Int) :
    intChars i ≠ [] ∧ ∀ c ∈ intChars i, c = '-' ∨ c.isDigit = true := by
  unfold intChars
  by_cases h : i < 0
  · rw [if_pos h]
    obtain ⟨hne, hall, _⟩ := natChars_spec i.natAbs
    refine ⟨by simp, ?_⟩
    intro c hc
    rcases List.mem_cons.mp hc with h1 | h1
    · exact Or.inl h1
    · exact Or.inr (List.all_eq_true.mp hall c h1)
  · rw [if_neg h]
    obtain ⟨hne, hall, _⟩ := natChars_spec i.toNat
    exact ⟨hne, fun c hc => Or.inr (List.all_eq_true.mp hall c hc)⟩

/-- Characters of an integer token are not whitespace. -/
theorem intChars_not_space (i : Int) : ∀ c ∈ intChars i, pyIsSpace c = false := by
  intro c hc
  rcases (intChars_spec i).2 c hc with h | h
  · rw [h]
    decide
  · exact isDigit_not_space h

/-- An integer token contains no newline. -/
theorem intChars_no_nl (i : Int) : '\n' ∉ intChars i := by
  intro hc
  rcases (intChars_spec i).2 _ hc with h | h
  · exact absurd h (by decide)
  · exact absurd h (by decide)

/-- The head of an integer token is a sign or a digit, and in particular
none of the letters the line classifier tests. -/
theorem intChars_head_class (i : Int) :
    ∀ c, (intChars i).head? = some c → c = '-' ∨ c.isDigit = true :=
  fun c hc => (intChars_spec i).2 c (head?_some_mem hc)

/-- A sign-or-digit character is not one of the marker letters, not
whitespace. -/
theorem sign_digit_class {c : Char} (h : c = '-' ∨ c.isDigit = true) :
    pyIsSpace c = false ∧ c ≠ 'c' ∧ c ≠ 'a' ∧ c ≠ 'e' := by
  rcases h with h | h
  · rw [h]
    exact ⟨by decide, by decide, by decide, by decide⟩
  · exact ⟨isDigit_not_space h, isDigit_ne h 'c' (by decide),
      isDigit_ne h 'a' (by decide), isDigit_ne h 'e' (by decide)⟩

/-- The literal tokens of a clause line are nonempty and whitespace-free. -/
theorem clauseLitTokens_spec (c : Clause) :
    ∀ t ∈ clauseLitTokens c, t ≠ [] ∧ ∀ ch ∈ t, pyIsSpace ch = false := by
  intro t ht
  obtain ⟨l, _, rfl⟩ := List.mem_map.mp ht
  exact ⟨(intChars_spec l).1, intChars_not_space l⟩

/-- A clause with literals has literal tokens. -/
theorem clauseLitTokens_ne_nil {c : Clause} (h : c.literals ≠ ∅) :
    clauseLitTokens c ≠ [] := by
  unfold clauseLitTokens
  intro hmap
  rw [List.map_eq_nil_iff] at hmap
  have hlen := length_sortLits c.literals
  rw [hmap] at hlen
  exact h (Finset.card_eq_zero.mp hlen.symm)

/-- The clause line is the space-join of the literal tokens and the
terminating zero token. -/
theorem clauseLitLine_eq_join {c : Clause} (h : c.literals ≠ ∅) :
    clauseLitLine c = joinWith ' ' (clauseLitTokens c ++ [['0']]) := by
  unfold clauseLitLine
  rw [joinWith_concat ' ' ['0'] (clauseLitTokens_ne_nil h)]

/-- Tokenizing a clause line recovers the literal tokens and the zero. -/
theorem pySplit_clauseLitLine {c : Clause} (h : c.literals ≠ ∅) :
    pySplit (clauseLitLine c) = clauseLitTokens c ++ [['0']] := by
  rw [clauseLitLine_eq_join h]
  apply pySplit_join
  intro t ht
  rcases List.mem_append.mp ht with h1 | h1
  · exact clauseLitTokens_spec c t h1
  · rw [List.mem_singleton] at h1
    subst h1
    exact ⟨by simp, by decide⟩

/-- Character classes of a clause line: no newline, nonempty, head a sign
or digit, last character the terminating `0`. -/
theorem clauseLitLine_chars {c : Clause} (h : c.literals ≠ ∅) :
    '\n' ∉ clauseLitLine c ∧ clauseLitLine c ≠ [] ∧
      (∀ ch, (clauseLitLine c).head? = some ch → ch = '-' ∨ ch.isDigit = true) ∧
      (clauseLitLine c).reverse.head? = some '0' := by
  obtain ⟨t0, ts, hts⟩ : ∃ t0 ts, clauseLitTokens c = t0 :: ts := by
    cases hcase : clauseLitTokens c with
    | nil => exact absurd hcase (clauseLitTokens_ne_nil h)
    | cons t0 ts => exact ⟨t0, ts, rfl⟩
  have ht0 : t0 ≠ [] ∧ ∀ ch ∈ t0, pyIsSpace ch = false :=
    clauseLitTokens_spec c t0 (hts ▸ List.mem_cons_self _ _)
  have hline : clauseLitLine c = joinWith ' ' (clauseLitTokens c) ++ [' ', '0'] := rfl
  refine ⟨?_, ?_, ?_, ?_⟩
  · intro hnl
    rw [hline] at hnl
    rcases List.mem_append.mp hnl with h1 | h1
    · rcases joinWith_mem h1 with h2 | ⟨x, hx, hcx⟩
      · exact absurd h2 (by decide)
      · obtain ⟨l, _, rfl⟩ := List.mem_map.mp hx
        exact intChars_no_nl l hcx
    · exact absurd h1 (by decide)
  · rw [hline]
    simp
  · intro ch hch
    rw [hline, hts] at hch
    have hj : (joinWith ' ' (t0 :: ts)).head? = t0.head? := joinWith_head? ts ht0.1
    have hjne : joinWith ' ' (t0 :: ts) ≠ [] := by
      intro hnil
      rw [hnil] at hj
      cases hempty : t0 with
      | nil => exact ht0.1 hempty
      | cons a as => rw [hempty] at hj; exact Option.noConfusion hj
    rw [head?_append_left hjne, hj] at hch
    have hmem : ch ∈ t0 := head?_some_mem hch
    have := hts ▸ List.mem_cons_self t0 ts
    obtain ⟨l, _, hl⟩ := List.mem_map.mp (hts ▸ List.mem_cons_self t0 ts :
      t0 ∈ clauseLitTokens c)
    exact (intChars_spec l).2 ch (hl ▸ hmem)
  · rw [hline, List.reverse_append]
    rfl

/-- The last character of a reversed digit run is a digit. -/
theorem digitRun_rev_head {B : List Char} (hall : B.all Char.isDigit = true) :
    ∀ ch, B.reverse.head? = some ch → ch.isDigit = true := by
  intro ch hch
  have hmem := head?_some_mem hch
  rw [List.mem_reverse] at hmem
  exact List.all_eq_true.mp hall ch hmem

/-- The header line is the space-join of its four tokens. -/
theorem formulaHeaderLine_as_join (f : Formula) :
    formulaHeaderLine f = joinWith ' '
      [['p'], ['c', 'n', 'f'], natChars f.variables_by_index.length,
        natChars f.clauses.length] := rfl

/-- Tokenizing the header line yields its four tokens. -/
theorem pySplit_header (f : Formula) :
    pySplit (formulaHeaderLine f) =
      [['p'], ['c', 'n', 'f'], natChars f.variables_by_index.length,
        natChars f.clauses.length] := by
  rw [formulaHeaderLine_as_join]
  apply pySplit_join
  intro t ht
  rcases List.mem_cons.mp ht with h1 | h1
  · subst h1
    exact ⟨by simp, by decide⟩
  rcases List.mem_cons.mp h1 with h2 | h2
  · subst h2
    exact ⟨by simp, by decide⟩
  rcases List.mem_cons.mp h2 with h3 | h3
  · subst h3
    obtain ⟨hne, hall, _⟩ := natChars_spec f.variables_by_index.length
    exact ⟨hne, fun ch hch => isDigit_not_space (List.all_eq_true.mp hall ch hch)⟩
  rcases List.mem_cons.mp h3 with h4 | h4
  · subst h4
    obtain ⟨hne, hall, _⟩ := natChars_spec f.clauses.length
    exact ⟨hne, fun ch hch => isDigit_not_space (List.all_eq_true.mp hall ch hch)⟩
  · exact absurd h4 (List.not_mem_nil t)

/-- Parsing the header line of a formula with at least one live variable
recovers the two counts. -/
theorem parseHeader_formula (f : Formula) (h1 : 1 ≤ f.variables_by_index.length) :
    parseHeader (formulaHeaderLine f) =
      some ((f.variables_by_index.length : Int), (f.clauses.length : Int)) := by
  show parseHeaderTokens (pySplit (formulaHeaderLine f)) = _
  rw [pySplit_header]
  have hred : parseHeaderTokens
      [['p'], ['c', 'n', 'f'], natChars f.variables_by_index.length,
        natChars f.clauses.length] =
      (match pyIntChars (natChars f.variables_by_index.length),
          pyIntChars (natChars f.clauses.length) with
        | some nv, some nc =>
          if nv ≤ 0 then none else if nc < 0 then none else some (nv, nc)
        | _, _ => none) := rfl
  rw [hred, pyIntChars_natChars, pyIntChars_natChars]
  show (if ((f.variables_by_index.length : Nat) : Int) ≤ 0 then none
    else if ((f.clauses.length : Nat) : Int) < 0 then none
    else some (((f.variables_by_index.length : Nat) : Int),
      ((f.clauses.length : Nat) : Int))) = _
  rw [if_neg (by omega), if_neg (by omega)]

/-- Character classes of the header line: no newline, head `p`, last a
digit. -/
theorem formulaHeaderLine_chars (f : Formula) :
    '\n' ∉ formulaHeaderLine f ∧ formulaHeaderLine f ≠ [] ∧
      (formulaHeaderLine f).head? = some 'p' ∧
      (∀ ch, (formulaHeaderLine f).reverse.head? = some ch →
        ch.isDigit = true) := by
  obtain ⟨hne, hall, _⟩ := natChars_spec f.clauses.length
  have hsplit : formulaHeaderLine f =
      ("p cnf ".data ++ natChars f.variables_by_index.length ++ [' ']) ++
        natChars f.clauses.length := by
    unfold formulaHeaderLine
    simp
  refine ⟨?_, ?_, rfl, ?_⟩
  · intro hnl
    rw [formulaHeaderLine_as_join] at hnl
    rcases joinWith_mem hnl with h1 | ⟨x, hx, hcx⟩
    · exact absurd h1 (by decide)
    · rcases List.mem_cons.mp hx with h2 | h2
      · subst h2
        exact absurd hcx (by decide)
      rcases List.mem_cons.mp h2 with h3 | h3
      · subst h3
        exact absurd hcx (by decide)
      rcases List.mem_cons.mp h3 with h4 | h4
      · subst h4
        obtain ⟨_, hall', _⟩ := natChars_spec f.variables_by_index.length
        exact absurd (List.all_eq_true.mp hall' _ hcx) (by decide)
      rcases List.mem_cons.mp h4 with h5 | h5
      · subst h5
        exact absurd (List.all_eq_true.mp hall _ hcx) (by decide)
      · exact absurd h5 (List.not_mem_nil x)
  · unfold formulaHeaderLine
    simp
  · intro ch hch
    rw [hsplit, List.reverse_append,
      head?_append_left (by simp [hne])] at hch
    exact digitRun_rev_head hall ch hch

/-- Character classes of a comment line: no newline, nonempty, starts with
`c`. -/
theorem clauseCommentLine_chars (c : Clause) :
    '\n' ∉ clauseCommentLine c ∧ clauseCommentLine c ≠ [] ∧
      startsWithChar (clauseCommentLine c) 'c' = true := by
  refine ⟨?_, by simp [clauseCommentLine], rfl⟩
  intro hnl
  unfold clauseCommentLine at hnl
  rcases List.mem_append.mp hnl with h1 | h1
  · rcases List.mem_append.mp h1 with h2 | h2
    · rcases List.mem_append.mp h2 with h3 | h3
      · exact absurd h3 (by decide)
      · exact intChars_no_nl c.index h3
    · exact absurd h2 (by decide)
  · by_cases ho : c.is_original
    · rw [if_pos ho] at h1
      exact absurd h1 (by decide)
    · rw [if_neg ho] at h1
      exact absurd h1 (by decide)

/-- Parsing back the rendered literal tokens recovers the literals. -/
theorem mapM_intChars (ls : List Int) :
    (ls.map intChars).mapM pyIntChars = some ls := by
  induction ls with
  | nil => rfl
  | cons x xs ih =>
    rw [List.map_cons, List.mapM_cons, pyIntChars_intChars, ih]
    rfl

/-- A clause line is processed by the body parser as a clause: appended to
the clause accumulator as its sorted literal list. -/
theorem parseBodyLine_clause (nv : Int) (c : Clause)
    (accC : List (List Int)) (accQ : List QuantifierBlock)
    (hc : c.literals ≠ ∅)
    (h0 : ∀ l ∈ c.literals, l ≠ 0)
    (hb : ∀ l ∈ c.literals, litVar l ≤ nv)
    (hdup : sortLits c.literals ∉ accC) :
    parseBodyLine nv (accC, accQ) (clauseLitLine c) =
      some (accC ++ [sortLits c.literals], accQ) := by
  obtain ⟨hnl, hne, hhead, hlast⟩ := clauseLitLine_chars hc
  have hsw : ∀ d : Char, d = 'a' ∨ d = 'e' →
      startsWithChar (clauseLitLine c) d = false := by
    intro d hd
    unfold startsWithChar
    cases hh : (clauseLitLine c).head? with
    | none => simp
    | some ch =>
      obtain ⟨-, -, hca, hce⟩ := sign_digit_class (hhead ch hh)
      rcases hd with rfl | rfl
      · simp [hca]
      · simp [hce]
  obtain ⟨t0, ts, hts⟩ : ∃ t0 ts, clauseLitTokens c = t0 :: ts := by
    cases hcase : clauseLitTokens c with
    | nil => exact absurd hcase (clauseLitTokens_ne_nil hc)
    | cons t0 ts => exact ⟨t0, ts, rfl⟩
  have hsorted_ne : sortLits c.literals ≠ [] := by
    intro hnil
    have := length_sortLits c.literals
    rw [hnil] at this
    exact hc (Finset.card_eq_zero.mp this.symm)
  unfold parseBodyLine
  rw [hsw 'a' (Or.inl rfl), hsw 'e' (Or.inr rfl)]
  simp only [Bool.false_eq_true, if_false]
  rw [pySplit_clauseLitLine hc, hts, List.cons_append]
  dsimp only []
  have hgl : ((t0 :: (ts ++ [['0']])).getLast? : Option (List Char)) = some ['0'] := by
    rw [← List.cons_append, List.getLast?_concat]
  have hdl : ((t0 :: (ts ++ [['0']])).dropLast : List (List Char)) = t0 :: ts := by
    rw [← List.cons_append, List.dropLast_concat]
  rw [hgl]
  rw [if_neg (by simp)]
  rw [hdl, ← hts]
  unfold clauseLitTokens
  rw [mapM_intChars]
  dsimp only []
  rw [if_neg hsorted_ne]
  have hany0 : (sortLits c.literals).any (fun l => decide (l = 0)) = false := by
    rw [List.any_eq_false]
    intro x hx
    simp only [decide_eq_true_eq]
    exact h0 x (mem_sortLits.mp hx)
  have hanyb : (sortLits c.literals).any (fun l => decide (litVar l > nv)) = false := by
    rw [List.any_eq_false]
    intro x hx
    simp only [decide_eq_true_eq]
    exact not_lt.mpr (hb x (mem_sortLits.mp hx))
  rw [hany0]
  rw [if_neg (by simp)]
  rw [hanyb]
  rw [if_neg (by simp)]
  rw [if_neg (by simp [hdup])]

/-- Folding the body parser over rendered clause lines appends exactly the
sorted literal lists of the clauses. -/
theorem body_fold (nv : Int) :
    ∀ (cs : List Clause) (accC : List (List Int)) (accQ : List QuantifierBlock),
      (∀ c ∈ cs, c.literals ≠ ∅ ∧ ∀ l ∈ c.literals, l ≠ 0 ∧ litVar l ≤ nv) →
      (accC ++ cs.map (fun c => sortLits c.literals)).Nodup →
      (cs.map clauseLitLine).foldlM (parseBodyLine nv) (accC, accQ) =
        some (accC ++ cs.map (fun c => sortLits c.literals), accQ) := by
  intro cs
  induction cs with
  | nil =>
    intro accC accQ _ _
    simp [List.foldlM_nil]
  | cons c cs' ih =>
    intro accC accQ hcond hnd
    rw [List.map_cons, List.foldlM_cons]
    obtain ⟨hc, hlits⟩ := hcond c (List.mem_cons_self _ _)
    have hdup : sortLits c.literals ∉ accC := by
      intro hmem
      rw [List.map_cons] at hnd
      obtain ⟨-, -, hdisj⟩ := List.nodup_append.mp hnd
      exact hdisj hmem (List.mem_cons_self _ _)
    rw [parseBodyLine_clause nv c accC accQ hc
      (fun l hl => (hlits l hl).1) (fun l hl => (hlits l hl).2) hdup]
    show (List.map clauseLitLine cs').foldlM (parseBodyLine nv)
      (accC ++ [sortLits c.literals], accQ) = _
    have hres := ih (accC ++ [sortLits c.literals]) accQ
      (fun d hd => hcond d (List.mem_cons_of_mem _ hd))
      (by rw [List.map_cons] at hnd; simpa [List.append_assoc] using hnd)
    rw [hres]
    simp [List.append_assoc]

/-- Joining a two-line clause rendering is joining its two lines. -/
theorem joinWith_two_line (a b : List Char) (T : List (List Char)) :
    joinWith '\n' ((a ++ '\n' :: b) :: T) = joinWith '\n' (a :: b :: T) := by
  cases T with
  | nil => rfl
  | cons u us =>
    rw [joinWith_cons '\n' (a ++ '\n' :: b) (List.cons_ne_nil u us),
      joinWith_cons '\n' a (List.cons_ne_nil b (u :: us)),
      joinWith_cons '\n' b (List.cons_ne_nil u us)]
    simp

/-- The newline-join of clause renderings flattens to the join of the
individual comment and clause lines. -/
theorem joinWith_clause_split :
    ∀ (L : List Clause) (x : List Char),
      joinWith '\n' (x :: L.map clauseToQdimacs) =
        joinWith '\n' (x :: L.flatMap
          (fun c => [clauseCommentLine c, clauseLitLine c])) := by
  intro L
  induction L with
  | nil => intro x; rfl
  | cons c cs ih =>
    intro x
    rw [List.map_cons, List.flatMap_cons]
    rw [joinWith_cons '\n' x (List.cons_ne_nil _ _), ih (clauseToQdimacs c)]
    rw [show clauseToQdimacs c =
      clauseCommentLine c ++ '\n' :: clauseLitLine c from rfl]
    rw [joinWith_two_line]
    exact (joinWith_cons '\n' x (List.cons_ne_nil _ _)).symm

/-- `sortLits` is injective: the sorted listing determines the set. -/
theorem sortLits_injective : Function.Injective sortLits := by
  intro s t h
  apply Finset.ext
  intro a
  rw [← mem_sortLits, ← mem_sortLits, h]

/-- Stripping is the identity on a header line. -/
theorem pyStrip_header (f : Formula) :
    pyStrip (formulaHeaderLine f) = formulaHeaderLine f := by
  obtain ⟨-, -, hhead, hlast⟩ := formulaHeaderLine_chars f
  apply pyStrip_eq_self
  · intro ch hch
    rw [hhead, Option.some_inj] at hch
    rw [← hch]
    decide
  · intro ch hch
    exact isDigit_not_space (hlast ch hch)

/-- Stripping is the identity on a clause line. -/
theorem pyStrip_clauseLitLine {c : Clause} (h : c.literals ≠ ∅) :
    pyStrip (clauseLitLine c) = clauseLitLine c := by
  obtain ⟨-, -, hhead, hlast⟩ := clauseLitLine_chars h
  apply pyStrip_eq_self
  · intro ch hch
    exact (sign_digit_class (hhead ch hch)).1
  · intro ch hch
    rw [hlast, Option.some_inj] at hch
    rw [← hch]
    decide

/-- The line filter keeps a header line. -/
theorem keepLine_header (f : Formula) : keepLine (formulaHeaderLine f) = true := by
  obtain ⟨-, hne, hhead, -⟩ := formulaHeaderLine_chars f
  unfold keepLine
  rw [pyStrip_header]
  have hsw : startsWithChar (formulaHeaderLine f) 'c' = false := by
    unfold startsWithChar
    rw [hhead]
    decide
  rw [hsw]
  cases hcase : formulaHeaderLine f with
  | nil => exact absurd hcase hne
  | cons a as => rfl

/-- The line filter keeps a clause line. -/
theorem keepLine_clause {c : Clause} (h : c.literals ≠ ∅) :
    keepLine (clauseLitLine c) = true := by
  obtain ⟨-, hne, hhead, -⟩ := clauseLitLine_chars h
  unfold keepLine
  rw [pyStrip_clauseLitLine h]
  have hsw : startsWithChar (clauseLitLine c) 'c' = false := by
    unfold startsWithChar
    cases hh : (clauseLitLine c).head? with
    | none => rfl
    | some ch =>
      obtain ⟨-, hcc, -, -⟩ := sign_digit_class (hhead ch hh)
      exact decide_eq_false (by simp [hcc])
  rw [hsw]
  cases hcase : clauseLitLine c with
  | nil => exact absurd hcase hne
  | cons a as => rfl

/-- The line filter drops a comment line. -/
theorem keepLine_comment (c : Clause) : keepLine (clauseCommentLine c) = false := by
  obtain ⟨-, -, hsw⟩ := clauseCommentLine_chars c
  unfold keepLine
  rw [hsw]
  simp

/-- Filtering and stripping the flattened clause renderings keeps exactly
the clause lines. -/
theorem filter_strip_clause_lines :
    ∀ (L : List Clause), (∀ c ∈ L, c.literals ≠ ∅) →
      ((L.flatMap (fun c => [clauseCommentLine c, clauseLitLine c])).filter
        keepLine).map pyStrip = L.map clauseLitLine := by
  intro L
  induction L with
  | nil => intro _; rfl
  | cons c cs ih =>
    intro h
    have hc := h c (List.mem_cons_self _ _)
    rw [List.flatMap_cons, List.filter_append, List.map_append]
    rw [List.filter_cons, if_neg (by simp [keepLine_comment c])]
    rw [List.filter_cons, if_pos (keepLine_clause hc)]
    rw [List.filter_nil]
    rw [ih (fun d hd => h d (List.mem_cons_of_mem _ hd))]
    rw [List.map_cons, List.map_nil, pyStrip_clauseLitLine hc]
    rfl

/-- The kept and stripped lines of a serialized formula are the header
line followed by the clause lines in ascending id order. -/
theorem formula_lines (f : Formula) (h : ∀ c ∈ f.clauses, c.literals ≠ ∅) :
    ((pySplitlines (toQdimacsChars f)).filter keepLine).map pyStrip
      = formulaHeaderLine f :: (sortClausesByIndex f.clauses).map clauseLitLine := by
  have hmem : ∀ c ∈ sortClausesByIndex f.clauses, c.literals ≠ ∅ := fun c hc =>
    h c ((List.perm_insertionSort _ f.clauses).mem_iff.mp hc)
  have hx : ∀ x ∈ formulaHeaderLine f ::
      (sortClausesByIndex f.clauses).flatMap
        (fun c => [clauseCommentLine c, clauseLitLine c]),
      '\n' ∉ x ∧ x ≠ [] := by
    intro x hxm
    rcases List.mem_cons.mp hxm with h1 | h1
    · subst h1
      obtain ⟨hnl, hne, -, -⟩ := formulaHeaderLine_chars f
      exact ⟨hnl, hne⟩
    · rw [List.mem_flatMap] at h1
      obtain ⟨c, hcmem, hxin⟩ := h1
      rcases List.mem_cons.mp hxin with h2 | h2
      · subst h2
        obtain ⟨hnl, hne, -⟩ := clauseCommentLine_chars c
        exact ⟨hnl, hne⟩
      · rw [List.mem_singleton] at h2
        subst h2
        obtain ⟨hnl, hne, -, -⟩ := clauseLitLine_chars (hmem c hcmem)
        exact ⟨hnl, hne⟩
  unfold toQdimacsChars
  rw [joinWith_clause_split, pySplitlines_join (List.cons_ne_nil _ _) hx]
  rw [List.filter_cons, if_pos (keepLine_header f)]
  rw [List.map_cons, pyStrip_header]
  rw [filter_strip_clause_lines _ hmem]

/-- C9 (amended): if the formula has at least one live variable, every
live clause is nonempty, every literal is nonzero with variable index at
most the live-variable count, and the live clauses have pairwise distinct
literal sets, then parsing the QDIMACS serialization succeeds and the
parsed clause content — the collection of signed-literal-index sets of
its clauses — equals that of the live clauses, ignoring clause ids and
original-versus-derived provenance. -/
theorem c9_roundtrip (f : Formula)
    (h1 : 1 ≤ f.variables_by_index.length)
    (h2 : ∀ c ∈ f.clauses, c.literals ≠ ∅)
    (h3 : ∀ c ∈ f.clauses, ∀ l ∈ c.literals,
      l ≠ 0 ∧ litVar l ≤ (f.variables_by_index.length : Int))
    (h4 : (f.clauses.map Clause.literals).Nodup) :
    ∃ q : QDimacs,
      fromQdimacsChars (toQdimacsChars f) = some q ∧
      q.num_vars = (f.variables_by_index.length : Int) ∧
      (q.clauses.map List.toFinset).Perm (f.clauses.map Clause.literals) := by
  have hperm : ((sortClausesByIndex f.clauses).map Clause.literals).Perm
      (f.clauses.map Clause.literals) :=
    (List.perm_insertionSort _ f.clauses).map _
  have hmemS : ∀ c ∈ sortClausesByIndex f.clauses, c ∈ f.clauses := fun c hc =>
    (List.perm_insertionSort _ f.clauses).mem_iff.mp hc
  have hnodupS : ((sortClausesByIndex f.clauses).map
      (fun c => sortLits c.literals)).Nodup := by
    have hnd : ((sortClausesByIndex f.clauses).map Clause.literals).Nodup :=
      hperm.nodup_iff.mpr h4
    have hmapped := hnd.map sortLits_injective
    rw [List.map_map] at hmapped
    exact hmapped
  have hfold := body_fold ((f.variables_by_index.length : Nat) : Int)
    (sortClausesByIndex f.clauses) [] []
    (fun c hc => ⟨h2 c (hmemS c hc), fun l hl => h3 c (hmemS c hc) l hl⟩)
    (by simpa using hnodupS)
  rw [List.nil_append] at hfold
  refine ⟨⟨((f.variables_by_index.length : Nat) : Int),
    (sortClausesByIndex f.clauses).map (fun c => sortLits c.literals), []⟩,
    ?_, rfl, ?_⟩
  · unfold fromQdimacsChars
    dsimp only []
    rw [formula_lines f h2]
    dsimp only []
    rw [parseHeader_formula f h1]
    dsimp only []
    rw [hfold]
  · have hEq : (((sortClausesByIndex f.clauses).map
        (fun c => sortLits c.literals)).map List.toFinset) =
        (sortClausesByIndex f.clauses).map Clause.literals := by
      rw [List.map_map]
      apply List.map_congr_left
      intro c _
      exact toFinset_sortLits c.literals
    dsimp only []
    rw [hEq]
    exact hperm

/-- Witness for the amended C9 roundtrip at the two-variable formula. -/
theorem c9_witness :
    ∃ q : QDimacs,
      fromQdimacsChars (toQdimacsChars fTwoVarInit) = some q ∧
      q.num_vars = (fTwoVarInit.variables_by_index.length : Int) ∧
      (q.clauses.map List.toFinset).Perm (fTwoVarInit.clauses.map Clause.literals) :=
  c9_roundtrip fTwoVarInit (by decide) (by decide) (by decide) (by decide)
